import Mathlib

/-!
Verification model of `tools/src/cmd_pipeline/cmd_traverse.rs`: the
`traverse` pipeline command of searchfox.  The command seeds a symbol
graph from piped-in crossref records, runs a worklist traversal over a
configured edge kind, enforces a node limit and a uses-path-count limit,
and optionally reduces the result to the simple paths between the roots.

The crossref records are semi-structured JSON documents; we embed the
subset of `serde_json::Value` the command consumes.  External
collaborators (the node-set / graph containers, the symbol resolver, the
callable predicate, the simple-path enumeration) live outside the
excerpted source; those definitions are modelled from the specification
and say so in their doc comments.
-/

namespace CmdTraverse

/-- JSON values, the subset of `serde_json::Value` shapes the command reads. -/
inductive Json where
  | null : Json
  | jbool : Bool → Json
  | str : String → Json
  | num : Int → Json
  | arr : List Json → Json
  | obj : List (String × Json) → Json

/-- Indexing a value by an object key, `value[key]` in Rust: a missing key or a
non-object yields `Json.null`, mirroring `serde_json`'s `Index for &str`. -/
def Json.getKey : Json → String → Json
  | .obj fields, k =>
    match fields.find? (fun kv => kv.1 == k) with
    | some kv => kv.2
    | none => .null
  | _, _ => .null

/-- The `as_str` accessor of `serde_json::Value`. -/
def Json.asStr : Json → Option String
  | .str s => some s
  | _ => none

/-- The `as_array` accessor of `serde_json::Value`. -/
def Json.asArray : Json → Option (List Json)
  | .arr xs => some xs
  | _ => none

/-- One step of a JSON pointer lookup: an object key, `None` when absent or
when the value is not an object. -/
def Json.pointerKey : Json → String → Option Json
  | .obj fields, k => (fields.find? (fun kv => kv.1 == k)).map (fun kv => kv.2)
  | _, _ => none

/-- `Value::pointer` restricted to object-key segments, the only segments the
command uses (paths such as `/meta/overrides`). -/
def Json.pointer : Json → List String → Option Json
  | j, [] => some j
  | j, k :: ks =>
    match j.pointerKey k with
    | some v => v.pointer ks
    | none => none

/-- Parse a JSON array of strings, as `from_value::<Vec<Ustr>>` does; `none`
models the parse failure that `unwrap` turns into a panic. -/
def Json.asStrList (j : Json) : Option (List String) :=
  match j.asArray with
  | some xs => xs.mapM Json.asStr
  | none => none

/-- Modelled from the spec: the binding-slot kinds of
`file_format::analysis::BindingSlotKind` that the command distinguishes;
`otherSlot` stands for every remaining variant of the Rust enum. -/
inductive BindingSlotKind where
  | enablingPref : BindingSlotKind
  | enablingFunc : BindingSlotKind
  | const : BindingSlotKind
  | send : BindingSlotKind
  | recv : BindingSlotKind
  | otherSlot : BindingSlotKind
deriving DecidableEq

/-- Modelled from the spec: `meta.slotOwner` is `{sym, slot_kind}`. -/
structure StructuredBindingSlotInfo where
  sym : String
  slot_kind : BindingSlotKind
deriving DecidableEq

/-- Modelled from the spec: deserialize a binding-slot kind name; a string
outside the five kinds the command names is some other (traversable) kind,
and a non-string fails to parse (the Rust `from_value(..).unwrap()` panics). -/
def parseBindingSlotKind : Json → Option BindingSlotKind
  | .str s =>
    if s == "EnablingPref" then some .enablingPref
    else if s == "EnablingFunc" then some .enablingFunc
    else if s == "Const" then some .const
    else if s == "Send" then some .send
    else if s == "Recv" then some .recv
    else some .otherSlot
  | _ => none

/-- Modelled from the spec: deserialize `StructuredBindingSlotInfo` from the
`meta.slotOwner` value, which carries a `sym` string and a slot kind. -/
def parseBindingSlot (j : Json) : Option StructuredBindingSlotInfo :=
  match (j.getKey "sym").asStr, parseBindingSlotKind (j.getKey "slotKind") with
  | some s, some k => some { sym := s, slot_kind := k }
  | _, _ => none

/-- Modelled from the spec: `meta.ontologySlots` entries have
`slot_kind ∈ {RunnableConstructor, RunnableMethod}`. -/
inductive OntologySlotKind where
  | runnableConstructor : OntologySlotKind
  | runnableMethod : OntologySlotKind
deriving DecidableEq

/-- Modelled from the spec: one `meta.ontologySlots` entry, a slot kind plus
its related symbols. -/
structure OntologySlotInfo where
  slot_kind : OntologySlotKind
  syms : List String
deriving DecidableEq

/-- Modelled from the spec: deserialize an ontology-slot kind; the Rust enum
is closed, so an unknown name fails to parse. -/
def parseOntologySlotKind : Json → Option OntologySlotKind
  | .str s =>
    if s == "RunnableConstructor" then some .runnableConstructor
    else if s == "RunnableMethod" then some .runnableMethod
    else none
  | _ => none

/-- Modelled from the spec: deserialize one `meta.ontologySlots` entry. -/
def parseOntologySlot (j : Json) : Option OntologySlotInfo :=
  match parseOntologySlotKind (j.getKey "slotKind"), (j.getKey "syms").asStrList with
  | some k, some ss => some { slot_kind := k, syms := ss }
  | _, _ => none

/-- Modelled from the spec: a `pointer_info` entry of a structured field
carries the pointee symbol. -/
structure StructuredPointerInfo where
  sym : String
deriving DecidableEq

/-- Modelled from the spec: one `meta.fields` entry,
`{sym, labels : [string], pointer_info : [{sym, …}]}`. -/
structure StructuredFieldInfo where
  sym : String
  labels : List String
  pointer_info : List StructuredPointerInfo
deriving DecidableEq

/-- Modelled from the spec: deserialize one `pointer_info` entry. -/
def parsePointerInfo (j : Json) : Option StructuredPointerInfo :=
  match (j.getKey "sym").asStr with
  | some s => some { sym := s }
  | none => none

/-- Modelled from the spec: deserialize one `meta.fields` entry; the `labels`
and `pointerInfo` lists default to empty when absent, while a present but
ill-shaped value fails to parse. -/
def parseFieldInfo (j : Json) : Option StructuredFieldInfo :=
  match (j.getKey "sym").asStr with
  | none => none
  | some s =>
    let labelsJson := j.getKey "labels"
    let ptrJson := j.getKey "pointerInfo"
    match (match labelsJson with | .null => some [] | v => v.asStrList),
        (match ptrJson with | .null => some [] | v => (v.asArray).bind (List.mapM parsePointerInfo)) with
    | some ls, some ps => some { sym := s, labels := ls, pointer_info := ps }
    | _, _ => none

/-- Modelled from the spec: deserialize the `meta.fields` array. -/
def parseFieldInfos (j : Json) : Option (List StructuredFieldInfo) :=
  (j.asArray).bind (List.mapM parseFieldInfo)

/-- Modelled from the spec: a `SymbolNode` — the symbol, its owned crossref
record, and a mutable list of badges (we keep the badge labels). -/
structure DerivedSymbolInfo where
  symbol : String
  crossref_info : Json
  badges : List String

/-- Modelled from the spec: the structural-kind "is this callable" predicate,
consumed as a given property — a symbol whose structured kind is a function
or a method. -/
def DerivedSymbolInfo.is_callable (info : DerivedSymbolInfo) : Bool :=
  match (info.crossref_info.pointer ["meta", "kind"]).bind Json.asStr with
  | some k => k == "function" || k == "method"
  | none => false

/-- Modelled from the spec: look up the owner's paired binding slot of the
given kind among its `meta.bindingSlots` entries, returning that slot's
symbol when present. -/
def DerivedSymbolInfo.get_binding_slot_sym (info : DerivedSymbolInfo) (kind : String) : Option String :=
  match (info.crossref_info.pointer ["meta", "bindingSlots"]).bind Json.asArray with
  | some slots =>
    (slots.find? (fun s => (s.getKey "slotKind").asStr == some kind)).bind
      (fun s => (s.getKey "sym").asStr)
  | none => none

/-- Modelled from the spec: the node set — it owns the symbol→node mapping
(a node id is the index of the symbol's record in insertion order) and
guarantees one record per symbol per traversal call. -/
structure SymbolGraphNodeSet where
  symbol_crossref_infos : List DerivedSymbolInfo

/-- The empty node set. -/
def SymbolGraphNodeSet.new : SymbolGraphNodeSet :=
  { symbol_crossref_infos := [] }

/-- The node id of a symbol already in the set. -/
def SymbolGraphNodeSet.findIdx (ns : SymbolGraphNodeSet) (sym : String) : Option Nat :=
  ns.symbol_crossref_infos.findIdx? (fun i => i.symbol == sym)

/-- The record stored at a node id. -/
def SymbolGraphNodeSet.get (ns : SymbolGraphNodeSet) (id : Nat) : Option DerivedSymbolInfo :=
  ns.symbol_crossref_infos[id]?

/-- The record a symbol has (or would get) in this node set: the stored one
when present, otherwise a fresh one resolved from the backing store. -/
def SymbolGraphNodeSet.infoOf (ns : SymbolGraphNodeSet) (resolve : String → Json) (sym : String) : DerivedSymbolInfo :=
  match ns.symbol_crossref_infos.find? (fun i => i.symbol == sym) with
  | some i => i
  | none => { symbol := sym, crossref_info := resolve sym, badges := [] }

/-- Modelled from the spec: `ensure_symbol` — return the node id and record of
a symbol, resolving it through the backing store and inserting it at the end
exactly once when it is not yet in the set. -/
def SymbolGraphNodeSet.ensure_symbol (ns : SymbolGraphNodeSet) (resolve : String → Json) (sym : String) :
    Nat × DerivedSymbolInfo × SymbolGraphNodeSet :=
  match ns.findIdx sym with
  | some i => (i, ns.infoOf resolve sym, ns)
  | none =>
    (ns.symbol_crossref_infos.length, { symbol := sym, crossref_info := resolve sym, badges := [] },
      { symbol_crossref_infos :=
          ns.symbol_crossref_infos ++ [{ symbol := sym, crossref_info := resolve sym, badges := [] }] })

/-- Modelled from the spec: `add_symbol` — idempotent node insertion of an
already-resolved record (used for the seeds). -/
def SymbolGraphNodeSet.add_symbol (ns : SymbolGraphNodeSet) (info : DerivedSymbolInfo) :
    Nat × SymbolGraphNodeSet :=
  match ns.findIdx info.symbol with
  | some i => (i, ns)
  | none =>
    (ns.symbol_crossref_infos.length,
      { symbol_crossref_infos := ns.symbol_crossref_infos ++ [info] })

/-- Replace the entry at an index of a list by a function of itself. -/
def listModify (f : α → α) : Nat → List α → List α
  | _, [] => []
  | 0, x :: xs => f x :: xs
  | n + 1, x :: xs => x :: listModify f n xs

/-- Modelled from the spec: push badge labels onto the node stored at `id`
(`field_info.badges.push(..)` in the class stage). -/
def SymbolGraphNodeSet.pushBadges (ns : SymbolGraphNodeSet) (id : Nat) (labels : List String) : SymbolGraphNodeSet :=
  { symbol_crossref_infos :=
      listModify (fun i => { i with badges := i.badges ++ labels }) id ns.symbol_crossref_infos }

/-- Modelled from the spec: a named directed graph over node ids with
idempotent node and edge insertion and no duplicate edges. -/
structure NamedSymbolGraph where
  name : String
  nodes : List Nat
  edges : List (Nat × Nat)

/-- A fresh empty graph with the given name. -/
def NamedSymbolGraph.new (name : String) : NamedSymbolGraph :=
  { name := name, nodes := [], edges := [] }

/-- Modelled from the spec: idempotent node insertion. -/
def NamedSymbolGraph.ensure_node (g : NamedSymbolGraph) (id : Nat) : NamedSymbolGraph :=
  if id ∈ g.nodes then g else { g with nodes := g.nodes ++ [id] }

/-- Modelled from the spec: idempotent directed-edge insertion, ensuring both
endpoints are nodes of the graph. -/
def NamedSymbolGraph.add_edge (g : NamedSymbolGraph) (a b : Nat) : NamedSymbolGraph :=
  let g := (g.ensure_node a).ensure_node b
  if (a, b) ∈ g.edges then g else { g with edges := g.edges ++ [(a, b)] }

/-- The two overload kinds of `interface::OverloadKind` the command emits. -/
inductive OverloadKind where
  | nodeLimit : OverloadKind
  | usesPaths : OverloadKind
deriving DecidableEq

/-- `interface::OverloadInfo`: a record that a limit truncated work. -/
structure OverloadInfo where
  kind : OverloadKind
  sym : Option String
  exist : Nat
  included : Nat
  local_limit : Nat
  global_limit : Nat
deriving DecidableEq

/-- The fatal errors of the command: a configuration error (bad input shape),
a data error over a named field of a named symbol's record (the
`ServerError::StickyProblem` with `ErrorLayer::DataLayer` whose message names
the symbol and the field or edge), and `parseFail` standing for the process
abort of a `from_value(..).unwrap()` panic on a malformed record field. -/
inductive TravError where
  | config : String → TravError
  | data : String → String → TravError
  | parseFail : TravError
deriving DecidableEq

/-- The recognized configuration options of the `Traverse` command. -/
structure Args where
  edge : String
  max_depth : Nat
  paths_between : Bool
  node_limit : Nat
  paths_between_node_limit : Nat
  skip_uses_at_path_count : Nat
deriving DecidableEq

/-- The defaults of the `clap` argument declarations. -/
def Args.defaults : Args :=
  { edge := "callees", max_depth := 8, paths_between := false,
    node_limit := 256, paths_between_node_limit := 8192,
    skip_uses_at_path_count := 16 }

/-- The node limit in effect for the main loop: the paths-between limit when
that mode is enabled, else the normal node limit. -/
def effectiveNodeLimit (args : Args) : Nat :=
  if args.paths_between then args.paths_between_node_limit else args.node_limit

/-- The command's output: node set, named graphs, overload records, and the
reserved hierarchical-graphs slot. -/
structure SymbolGraphCollection where
  node_set : SymbolGraphNodeSet
  graphs : List NamedSymbolGraph
  overloads_hit : List OverloadInfo
  hierarchical_graphs : List NamedSymbolGraph

/-- One seed pair of the piped-in `SymbolCrossrefInfoList`. -/
structure SymbolCrossrefInfo where
  symbol : String
  crossref_info : Json

/-- The pipeline values the command consumes and produces; `otherValue`
stands for every other variant of the pipeline's value enum. -/
inductive PipelineValues where
  | symbolCrossrefInfoList : List SymbolCrossrefInfo → PipelineValues
  | symbolGraphCollection : SymbolGraphCollection → PipelineValues
  | otherValue : PipelineValues

/-- The mutable state of one traversal call: the node set, the graph being
built, the worklist (`to_traverse`, a stack whose head is the top), the
call-scoped `considered` set, and the overload records. -/
structure TState where
  sym_node_set : SymbolGraphNodeSet
  graph : NamedSymbolGraph
  to_traverse : List (String × Nat)
  considered : List String
  overloads_hit : List OverloadInfo

/-- The state right after `SymbolGraphNodeSet::new()` / `NamedSymbolGraph::new("only")`. -/
def TState.initial : TState :=
  { sym_node_set := SymbolGraphNodeSet.new, graph := NamedSymbolGraph.new "only",
    to_traverse := [], considered := [], overloads_hit := [] }

/-- `HashSet::insert`: whether the element was newly inserted, and the set
afterwards. -/
def consideredInsert (c : List String) (s : String) : Bool × List String :=
  if s ∈ c then (false, c) else (true, s :: c)

/-- The re-queue pattern `if depth < max_depth && considered.insert(sym) { to_traverse.push((sym, depth + 1)) }`:
the `considered` insertion is attempted only when the depth guard passes, and
the push happens only when the insertion succeeds. -/
def maybeSchedule (max_depth : Nat) (st : TState) (sym : String) (depth : Nat) : TState :=
  if depth < max_depth then
    let fc := consideredInsert st.considered sym
    if fc.1 then
      { st with considered := fc.2, to_traverse := (sym, depth + 1) :: st.to_traverse }
    else st
  else st

/-- The inner loop of the class stage over one field's `pointer_info`: ensure
each pointee, schedule it, and collect its node id as an edge target. -/
def processPointerTargets (max_depth : Nat) (resolve : String → Json) (depth : Nat) :
    TState → List StructuredPointerInfo → TState × List Nat
  | st, [] => (st, [])
  | st, p :: ps =>
    let e := st.sym_node_set.ensure_symbol resolve p.sym
    let st := { st with sym_node_set := e.2.2 }
    let st := maybeSchedule max_depth st p.sym depth
    let rest := processPointerTargets max_depth resolve depth st ps
    (rest.1, e.1 :: rest.2)

/-- The class stage's per-field body: a field is shown when it has a label or
any pointer target; a shown field is ensured, its labels become badges, and
one edge field→target is added per recorded target. -/
def processField (max_depth : Nat) (resolve : String → Json) (depth : Nat)
    (st : TState) (field : StructuredFieldInfo) : TState :=
  let shown0 := field.labels.length > 0
  let r := processPointerTargets max_depth resolve depth st field.pointer_info
  let st := r.1
  let target_ids := r.2
  let show_field := shown0 || field.pointer_info.length > 0
  if show_field then
    let e := st.sym_node_set.ensure_symbol resolve field.sym
    let ns := e.2.2.pushBadges e.1 field.labels
    let g := target_ids.foldl (fun g tid => g.add_edge e.1 tid) st.graph
    { st with sym_node_set := ns, graph := g }
  else st

/-- Stage 1, class/fields: active only for edge kind "class".  A
`class-diagram:stop` label abandons the symbol; otherwise each `meta.fields`
entry is processed.  The returned flag is `false` when the symbol is
abandoned (the `continue` in the source). -/
def classStage (args : Args) (resolve : String → Json) (st : TState)
    (info : DerivedSymbolInfo) (depth : Nat) : Except TravError (TState × Bool) :=
  if args.edge == "class" then
    let fieldsPart : Except TravError (TState × Bool) :=
      match info.crossref_info.pointer ["meta", "fields"] with
      | some fieldsJson =>
        match parseFieldInfos fieldsJson with
        | none => .error .parseFail
        | some fields => .ok (fields.foldl (processField args.max_depth resolve depth) st, true)
      | none => .ok (st, true)
    match info.crossref_info.pointer ["meta", "labels"] with
    | some labelsJson =>
      match labelsJson.asStrList with
      | none => .error .parseFail
      | some labels =>
        if labels.any (fun l => l == "class-diagram:stop") then .ok (st, false)
        else fieldsPart
    | none => fieldsPart
  else .ok (st, true)

/-- Stage 2, slot owner: for a traversable slot kind the owner is ensured;
a `Recv` slot looks through to the paired send slot, draws send→self,
schedules the send symbol, and abandons the symbol unconditionally; any
other traversable kind draws owner→self, schedules the owner, and falls
through.  The four support kinds are never traversed. -/
def slotOwnerStage (args : Args) (resolve : String → Json) (st : TState)
    (symId : Nat) (depth : Nat) (slotOwnerJson : Option Json) :
    Except TravError (TState × Bool) :=
  match slotOwnerJson with
  | none => .ok (st, true)
  | some val =>
    match parseBindingSlot val with
    | none => .error .parseFail
    | some slot_owner =>
      let should_traverse :=
        match slot_owner.slot_kind with
        | .enablingPref => false
        | .enablingFunc => false
        | .const => false
        | .send => false
        | _ => true
      if should_traverse then
        let e := st.sym_node_set.ensure_symbol resolve slot_owner.sym
        let idl_id := e.1
        let idl_info := e.2.1
        let st := { st with sym_node_set := e.2.2 }
        if slot_owner.slot_kind = .recv then
          match idl_info.get_binding_slot_sym "send" with
          | some send_sym =>
            let e2 := st.sym_node_set.ensure_symbol resolve send_sym
            let send_id := e2.1
            let send_info := e2.2.1
            let st := { st with sym_node_set := e2.2.2 }
            let st := { st with graph := st.graph.add_edge send_id symId }
            let st := maybeSchedule args.max_depth st send_info.symbol depth
            .ok (st, false)
          | none => .ok (st, false)
        else
          let st := { st with graph := st.graph.add_edge idl_id symId }
          let st := maybeSchedule args.max_depth st idl_info.symbol depth
          .ok (st, true)
      else .ok (st, true)

/-- The ontology stage's loop over one slot's related symbols: draw the edge
in the slot's direction and schedule each related symbol. -/
def ontologyRelLoop (max_depth : Nat) (resolve : String → Json) (symId : Nat) (depth : Nat)
    (upwards : Bool) : TState → List String → TState
  | st, [] => st
  | st, rel :: rest =>
    let e := st.sym_node_set.ensure_symbol resolve rel
    let st := { st with sym_node_set := e.2.2 }
    let g := if upwards then st.graph.add_edge e.1 symId else st.graph.add_edge symId e.1
    let st := maybeSchedule max_depth { st with graph := g } rel depth
    ontologyRelLoop max_depth resolve symId depth upwards st rest

/-- The ontology stage's loop over the `meta.ontologySlots` array: a slot is
active for RunnableConstructor with edge "uses" (edges target→self) or
RunnableMethod with edge "callees" (edges self→target); one active slot
clears `keep_going`. -/
def ontologySlotLoop (args : Args) (resolve : String → Json) (symId : Nat) (depth : Nat) :
    TState → Bool → List Json → Except TravError (TState × Bool)
  | st, keep_going, [] => .ok (st, keep_going)
  | st, keep_going, slotJson :: rest =>
    match parseOntologySlot slotJson with
    | none => .error .parseFail
    | some slot =>
      let su : Bool × Bool :=
        match slot.slot_kind with
        | .runnableConstructor => (args.edge == "uses", true)
        | .runnableMethod => (args.edge == "callees", false)
      if su.1 then
        let st := ontologyRelLoop args.max_depth resolve symId depth su.2 st slot.syms
        ontologySlotLoop args resolve symId depth st false rest
      else
        ontologySlotLoop args resolve symId depth st keep_going rest

/-- Stage 3, ontology slots: the symbol is re-ensured (a no-op lookup), and
when `meta.ontologySlots` is present as an array its slots are iterated; if
at least one slot was active the symbol is abandoned after the iteration. -/
def ontologyStage (args : Args) (resolve : String → Json) (st : TState)
    (sym : String) (depth : Nat) : Except TravError (TState × Bool) :=
  let e := st.sym_node_set.ensure_symbol resolve sym
  let sym_id := e.1
  let sym_info := e.2.1
  let st := { st with sym_node_set := e.2.2 }
  match sym_info.crossref_info.pointer ["meta", "ontologySlots"] with
  | some (.arr slots) => ontologySlotLoop args resolve sym_id depth st true slots
  | _ => .ok (st, true)

/-- Stage 4's loop over the `meta.overrides` entries: each entry must carry a
`sym` string (else a data error naming the root symbol and "meta overrides");
a callable target that is newly inserted into `considered` gets one edge
target→self and, below the depth ceiling, a worklist push. -/
def overridesLoop (max_depth : Nat) (resolve : String → Json) (rootSym : String)
    (symId : Nat) (depth : Nat) : TState → List Json → Except TravError TState
  | st, [] => .ok st
  | st, target :: rest =>
    match (target.getKey "sym").asStr with
    | none => .error (.data rootSym "meta overrides")
    | some target_sym =>
      let e := st.sym_node_set.ensure_symbol resolve target_sym
      let target_id := e.1
      let target_info := e.2.1
      let st := { st with sym_node_set := e.2.2 }
      let st :=
        if target_info.is_callable then
          let fc := consideredInsert st.considered target_info.symbol
          if fc.1 then
            let st := { st with considered := fc.2, graph := st.graph.add_edge target_id symId }
            if depth < max_depth then
              { st with to_traverse := (target_info.symbol, depth + 1) :: st.to_traverse }
            else st
          else st
        else st
      overridesLoop max_depth resolve rootSym symId depth st rest

/-- Stage 4, overrides: evaluated whatever the configured edge kind is, over
the snapshot of `meta.overrides` when it is an array. -/
def overridesStage (max_depth : Nat) (resolve : String → Json) (rootSym : String)
    (symId : Nat) (depth : Nat) (st : TState) (overridesJson : Json) : Except TravError TState :=
  match overridesJson.asArray with
  | none => .ok st
  | some sym_edges => overridesLoop max_depth resolve rootSym symId depth st sym_edges

/-- Stage 5's loop over the `meta.overriddenBy` entries (bare symbol strings;
a non-string is a data error naming the root symbol and "meta overriddenBy"),
with the same callable filter and considered-gated all-or-nothing edge rule
as the overrides loop. -/
def overriddenByLoop (max_depth : Nat) (resolve : String → Json) (rootSym : String)
    (symId : Nat) (depth : Nat) : TState → List Json → Except TravError TState
  | st, [] => .ok st
  | st, target :: rest =>
    match target.asStr with
    | none => .error (.data rootSym "meta overriddenBy")
    | some target_sym =>
      let e := st.sym_node_set.ensure_symbol resolve target_sym
      let target_id := e.1
      let target_info := e.2.1
      let st := { st with sym_node_set := e.2.2 }
      let st :=
        if target_info.is_callable then
          let fc := consideredInsert st.considered target_info.symbol
          if fc.1 then
            let st := { st with considered := fc.2, graph := st.graph.add_edge target_id symId }
            if depth < max_depth then
              { st with to_traverse := (target_info.symbol, depth + 1) :: st.to_traverse }
            else st
          else st
        else st
      overriddenByLoop max_depth resolve rootSym symId depth st rest

/-- Stage 5, overriddenBy: evaluated only when the configured edge kind is
"inheritance". -/
def overriddenByStage (args : Args) (resolve : String → Json) (rootSym : String)
    (symId : Nat) (depth : Nat) (st : TState) (overriddenByJson : Json) : Except TravError TState :=
  if args.edge == "inheritance" then
    match overriddenByJson.asArray with
    | none => .ok st
    | some sym_edges => overriddenByLoop args.max_depth resolve rootSym symId depth st sym_edges
  else .ok st

/-- The callees loop: each target must carry a `sym` string (else a data
error naming the root symbol and the edge); a callable target gets one edge
self→target and is scheduled under the usual guards. -/
def calleesLoop (max_depth : Nat) (resolve : String → Json) (rootSym : String)
    (symId : Nat) (depth : Nat) : TState → List Json → Except TravError TState
  | st, [] => .ok st
  | st, target :: rest =>
    match (target.getKey "sym").asStr with
    | none => .error (.data rootSym "edge callees")
    | some target_sym =>
      let e := st.sym_node_set.ensure_symbol resolve target_sym
      let target_id := e.1
      let target_info := e.2.1
      let st := { st with sym_node_set := e.2.2 }
      let st :=
        if target_info.is_callable then
          let st := { st with graph := st.graph.add_edge symId target_id }
          maybeSchedule max_depth st target_info.symbol depth
        else st
      calleesLoop max_depth resolve rootSym symId depth st rest

/-- The uses stage's loop over one path-group's hit lines.  A hit whose
`contextsym` is missing or empty is skipped silently; a callable source not
yet in the per-symbol `use_considered` set gets one edge source→self and is
scheduled under the usual guards. -/
def usesHitLoop (max_depth : Nat) (resolve : String → Json) (symId : Nat) (depth : Nat) :
    TState → List String → List Json → TState × List String
  | st, use_considered, [] => (st, use_considered)
  | st, use_considered, source :: rest =>
    let source_sym_str := ((source.getKey "contextsym").asStr).getD ""
    if source_sym_str == "" then
      usesHitLoop max_depth resolve symId depth st use_considered rest
    else
      let e := st.sym_node_set.ensure_symbol resolve source_sym_str
      let source_id := e.1
      let source_info := e.2.1
      let st := { st with sym_node_set := e.2.2 }
      if source_info.is_callable then
        let fc := consideredInsert use_considered source_info.symbol
        if fc.1 then
          let st := { st with graph := st.graph.add_edge source_id symId }
          let st := maybeSchedule max_depth st source_info.symbol depth
          usesHitLoop max_depth resolve symId depth st fc.2 rest
        else
          usesHitLoop max_depth resolve symId depth st use_considered rest
      else
        usesHitLoop max_depth resolve symId depth st use_considered rest

/-- The uses stage's loop over the path-groups: each group must have a
`lines` array (else a data error naming the root symbol and the edge), whose
hits are then processed with the shared `use_considered` set. -/
def usesGroupLoop (max_depth : Nat) (resolve : String → Json) (rootSym : String)
    (symId : Nat) (depth : Nat) : TState → List String → List Json → Except TravError TState
  | st, _, [] => .ok st
  | st, use_considered, path_hits :: rest =>
    match (path_hits.getKey "lines").asArray with
    | none => .error (.data rootSym "edge uses")
    | some hits =>
      let r := usesHitLoop max_depth resolve symId depth st use_considered hits
      usesGroupLoop max_depth resolve rootSym symId depth r.1 r.2 rest

/-- Stage 6, the explicit edges of `record.edges[kind]` when that value is an
array: "callees" walks the flat target list; "uses" first applies the
`skip_uses_at_path_count` limit (emitting one `UsesPaths` overload and
skipping every use edge when the group count reaches it) and otherwise walks
the groups with a fresh `use_considered` set; any other edge kind is a no-op. -/
def explicitStage (args : Args) (resolve : String → Json) (rootSym : String)
    (symId : Nat) (depth : Nat) (st : TState) (edgesJson : Json) : Except TravError TState :=
  match edgesJson.asArray with
  | none => .ok st
  | some sym_edges =>
    if args.edge == "callees" then
      calleesLoop args.max_depth resolve rootSym symId depth st sym_edges
    else if args.edge == "uses" then
      if args.skip_uses_at_path_count ≤ sym_edges.length then
        .ok { st with overloads_hit := st.overloads_hit ++
          [{ kind := .usesPaths, sym := some rootSym, exist := sym_edges.length,
             included := 0, local_limit := args.skip_uses_at_path_count, global_limit := 0 }] }
      else
        usesGroupLoop args.max_depth resolve rootSym symId depth st [] sym_edges
    else .ok st

/-- The per-symbol body of the driver loop: ensure the symbol, snapshot the
record's edge list and meta fields, then run the six stages in order; a
stage that signals abandonment (`continue` in the source) ends the symbol's
processing. -/
def processSymbol (args : Args) (resolve : String → Json) (st : TState)
    (sym : String) (depth : Nat) : Except TravError TState :=
  let e := st.sym_node_set.ensure_symbol resolve sym
  let sym_id := e.1
  let sym_info := e.2.1
  let st := { st with sym_node_set := e.2.2 }
  let edgesJson := sym_info.crossref_info.getKey args.edge
  let overridesJson := (sym_info.crossref_info.pointer ["meta", "overrides"]).getD .null
  let overriddenByJson := (sym_info.crossref_info.pointer ["meta", "overriddenBy"]).getD .null
  let slotOwnerJson := sym_info.crossref_info.pointer ["meta", "slotOwner"]
  match classStage args resolve st sym_info depth with
  | .error er => .error er
  | .ok (st, false) => .ok st
  | .ok (st, true) =>
    match slotOwnerStage args resolve st sym_id depth slotOwnerJson with
    | .error er => .error er
    | .ok (st, false) => .ok st
    | .ok (st, true) =>
      match ontologyStage args resolve st sym depth with
      | .error er => .error er
      | .ok (st, false) => .ok st
      | .ok (st, true) =>
        match overridesStage args.max_depth resolve sym sym_id depth st overridesJson with
        | .error er => .error er
        | .ok st =>
          match overriddenByStage args resolve sym sym_id depth st overriddenByJson with
          | .error er => .error er
          | .ok st => explicitStage args resolve sym sym_id depth st edgesJson

/-- The `OverloadInfo` pushed when the node limit trips: the just-dequeued
symbol, the remaining worklist size, and the limit as both included count
and global limit. -/
def nodeLimitOverload (sym : String) (remaining limit : Nat) : OverloadInfo :=
  { kind := .nodeLimit, sym := some sym, exist := remaining,
    included := limit, local_limit := 0, global_limit := limit }

/-- The driver loop, fuelled to stay a total function: pop one worklist
entry; when the node count has reached the effective limit, record one
`NodeLimit` overload, discard the remaining worklist and stop; otherwise
process the symbol and continue.  `none` means the fuel ran out before the
loop finished (the loop itself always terminates in the Rust source because
every push is guarded by a fresh `considered` insertion). -/
def traverseLoop (args : Args) (resolve : String → Json) :
    Nat → TState → Except TravError (Option TState)
  | 0, _ => .ok none
  | fuel + 1, st =>
    match st.to_traverse with
    | [] => .ok (some st)
    | (sym, depth) :: rest =>
      let st := { st with to_traverse := rest }
      if effectiveNodeLimit args ≤ st.sym_node_set.symbol_crossref_infos.length then
        let stopped : TState :=
          { st with
            to_traverse := ([] : List (String × Nat)),
            overloads_hit := st.overloads_hit ++
              [nodeLimitOverload sym rest.length (effectiveNodeLimit args)] }
        .ok (some stopped)
      else
        match processSymbol args resolve st sym depth with
        | .error er => .error er
        | .ok st2 => traverseLoop args resolve fuel st2

/-- One seeding step: push `(symbol, 0)`, mark the symbol considered, insert
its record into the node set, ensure a bare node in the graph (so zero-edge
seeds still appear), and append the node id to the root set. -/
def seedOne (acc : TState × List Nat) (info : SymbolCrossrefInfo) : TState × List Nat :=
  let st := acc.1
  let st := { st with to_traverse := (info.symbol, 0) :: st.to_traverse }
  let fc := consideredInsert st.considered info.symbol
  let st := { st with considered := fc.2 }
  let a := st.sym_node_set.add_symbol
    { symbol := info.symbol, crossref_info := info.crossref_info, badges := [] }
  let st := { st with sym_node_set := a.2, graph := st.graph.ensure_node a.1 }
  (st, acc.2 ++ [a.1])

/-- Seeding: propagate every starting symbol into the graph and queue it for
traversal. -/
def seedInit (infos : List SymbolCrossrefInfo) : TState × List Nat :=
  infos.foldl seedOne (TState.initial, [])

/-- The outgoing neighbours of a node in an edge list. -/
def successors (edges : List (Nat × Nat)) (n : Nat) : List Nat :=
  edges.filterMap (fun e => if e.1 = n then some e.2 else none)

/-- Modelled from the spec: the recursive enumeration behind
`all_simple_paths` — every edge-connected, repetition-free node sequence
from `cur` to `target` avoiding `visited`, with `fuel` bounding the length. -/
def simplePathsFrom (edges : List (Nat × Nat)) :
    Nat → Nat → Nat → List Nat → List (List Nat)
  | 0, _, _, _ => []
  | fuel + 1, cur, target, visited =>
    if cur = target then [[cur]]
    else
      (successors edges cur).flatMap (fun nxt =>
        if nxt ∈ visited then []
        else (simplePathsFrom edges fuel nxt target (nxt :: visited)).map (fun p => cur :: p))

/-- Modelled from the spec: `all_simple_paths` of the graph container — all
simple paths from `s` to `t` over the graph's edges (empty when `s = t`,
the roots being distinct in the intended use). -/
def NamedSymbolGraph.all_simple_paths (g : NamedSymbolGraph) (s t : Nat) : List (List Nat) :=
  if s = t then [] else simplePathsFrom g.edges (g.nodes.length + 1) s t [s]

/-- The accumulating state of the paths-between reduction: the fresh graph
named "paths", the fresh node set, and the suppression set of already-copied
source node ids, shared across all root pairs. -/
structure PathsAcc where
  paths_graph : NamedSymbolGraph
  paths_node_set : SymbolGraphNodeSet
  suppression : List Nat

/-- Modelled from the spec: copy one path node into the fresh node set unless
its source id is already suppressed (source ids on discovered paths are
always valid node-set indices; an invalid one copies nothing). -/
def ensurePathNode (src : SymbolGraphNodeSet) (acc : PathsAcc) (oldId : Nat) : PathsAcc :=
  if oldId ∈ acc.suppression then acc
  else
    match src.get oldId with
    | none => acc
    | some info =>
      let a := acc.paths_node_set.add_symbol info
      { paths_graph := acc.paths_graph.ensure_node a.1,
        paths_node_set := a.2,
        suppression := oldId :: acc.suppression }

/-- The fresh-set node id corresponding to a source node id. -/
def newIdOf (src : SymbolGraphNodeSet) (pns : SymbolGraphNodeSet) (oldId : Nat) : Option Nat :=
  (src.get oldId).bind (fun info => pns.findIdx info.symbol)

/-- Modelled from the spec: copy each consecutive edge of one discovered path
into the fresh graph (idempotently). -/
def propagateEdges (src : SymbolGraphNodeSet) (acc : PathsAcc) : List Nat → PathsAcc
  | [] => acc
  | [_] => acc
  | a :: b :: rest =>
    let acc :=
      match newIdOf src acc.paths_node_set a, newIdOf src acc.paths_node_set b with
      | some na, some nb => { acc with paths_graph := acc.paths_graph.add_edge na nb }
      | _, _ => acc
    propagateEdges src acc (b :: rest)

/-- Modelled from the spec: merge one discovered path — its nodes first,
deduplicated through the suppression set, then its edges. -/
def propagateOnePath (src : SymbolGraphNodeSet) (acc : PathsAcc) (p : List Nat) : PathsAcc :=
  propagateEdges src (p.foldl (ensurePathNode src) acc) p

/-- Modelled from the spec: `propagate_paths` — merge every node and edge on
every discovered path into the fresh node set and graph. -/
def SymbolGraphNodeSet.propagate_paths (src : SymbolGraphNodeSet)
    (node_paths : List (List Nat)) (acc : PathsAcc) : PathsAcc :=
  node_paths.foldl (propagateOnePath src) acc

/-- The ordered root-pair list `root_set.iter().tuple_combinations()`. -/
def tupleCombinations : List Nat → List (Nat × Nat)
  | [] => []
  | x :: xs => xs.map (fun y => (x, y)) ++ tupleCombinations xs

/-- One root pair of the reduction: propagate all simple paths in both
directions over the completed graph. -/
def propagatePair (st : TState) (acc : PathsAcc) (pr : Nat × Nat) : PathsAcc :=
  let acc := st.sym_node_set.propagate_paths (st.graph.all_simple_paths pr.1 pr.2) acc
  st.sym_node_set.propagate_paths (st.graph.all_simple_paths pr.2 pr.1) acc

/-- The paths-between reduction: for every pair of distinct roots, propagate
all simple paths in both directions over the completed graph into a fresh
node set and a graph named "paths", then assemble the output collection. -/
def buildPathsBetween (st : TState) (root_set : List Nat) : SymbolGraphCollection :=
  let acc0 : PathsAcc :=
    { paths_graph := NamedSymbolGraph.new "paths",
      paths_node_set := SymbolGraphNodeSet.new, suppression := [] }
  let acc := (tupleCombinations root_set).foldl (propagatePair st) acc0
  { node_set := acc.paths_node_set, graphs := [acc.paths_graph],
    overloads_hit := st.overloads_hit, hierarchical_graphs := [] }

/-- Consecutive path nodes are all connected by edges of the given edge
set. -/
def edgeChainB (edges : List (Nat × Nat)) : List Nat → Bool
  | [] => true
  | [_] => true
  | a :: b :: rest => decide ((a, b) ∈ edges) && edgeChainB edges (b :: rest)

/-- No node repeats on the path. -/
def listNodupB : List Nat → Bool
  | [] => true
  | x :: xs => decide (x ∉ xs) && listNodupB xs

/-- A simple path from `s` to `t` over the given edge set: starts at `s`,
ends at `t`, repeats no node, and follows edges. -/
def isSimplePathB (edges : List (Nat × Nat)) (p : List Nat) (s t : Nat) : Bool :=
  (p.head? == some s) && (p.getLast? == some t) && listNodupB p && edgeChainB edges p

/-- `TraverseCommand::execute`: reject a non-seed-list input with a
configuration error, seed, run the driver loop, and assemble the output
collection (the paths-between reduction when enabled, else the node set and
the graph named "only").  `ok none` means the loop fuel ran out. -/
def execute (args : Args) (resolve : String → Json) (input : PipelineValues)
    (fuel : Nat) : Except TravError (Option PipelineValues) :=
  match input with
  | .symbolCrossrefInfoList infos =>
    let sr := seedInit infos
    match traverseLoop args resolve fuel sr.1 with
    | .error er => .error er
    | .ok none => .ok none
    | .ok (some st) =>
      if args.paths_between then
        .ok (some (.symbolGraphCollection (buildPathsBetween st sr.2)))
      else
        .ok (some (.symbolGraphCollection
          { node_set := st.sym_node_set, graphs := [st.graph],
            overloads_hit := st.overloads_hit, hierarchical_graphs := [] }))
  | _ => .error (.config "traverse needs a CrossrefInfoList")

/-! ### Projections of a command result, used to state concrete runs -/

/-- The graph collection of a successful run. -/
def outCollection : Except TravError (Option PipelineValues) → Option SymbolGraphCollection
  | .ok (some (.symbolGraphCollection c)) => some c
  | _ => none

/-- The symbols of a node set, in insertion order. -/
def symbolsOf (ns : SymbolGraphNodeSet) : List String :=
  ns.symbol_crossref_infos.map (fun i => i.symbol)

/-- The node symbols of a successful run's collection. -/
def outNodeSymbols (r : Except TravError (Option PipelineValues)) : Option (List String) :=
  (outCollection r).map (fun c => symbolsOf c.node_set)

/-- The node count of a successful run's collection. -/
def outNodeCount (r : Except TravError (Option PipelineValues)) : Option Nat :=
  (outCollection r).map (fun c => c.node_set.symbol_crossref_infos.length)

/-- The overload records of a successful run's collection. -/
def outOverloads (r : Except TravError (Option PipelineValues)) : Option (List OverloadInfo) :=
  (outCollection r).map (fun c => c.overloads_hit)

/-- The edges of the first graph of a successful run's collection. -/
def outEdges (r : Except TravError (Option PipelineValues)) : Option (List (Nat × Nat)) :=
  (outCollection r).map (fun c => (c.graphs.headD (NamedSymbolGraph.new "")).edges)

/-- The names of the graphs of a successful run's collection. -/
def outGraphNames (r : Except TravError (Option PipelineValues)) : Option (List String) :=
  (outCollection r).map (fun c => c.graphs.map (fun g => g.name))

/-- Whether a run ended in a data error. -/
def isDataError : Except TravError (Option PipelineValues) → Bool
  | .error (.data _ _) => true
  | _ => false

/-! ### Concrete records and runs used by counterexamples and witnesses -/

/-- A crossref record whose structured kind is "function". -/
def callableRec : Json :=
  Json.obj [("meta", Json.obj [("kind", Json.str "function")])]

/-- C1: a seed whose two callees blow past a node limit of 2. -/
def c1Rec : Json :=
  Json.obj [("callees", Json.arr [Json.obj [("sym", Json.str "B")],
    Json.obj [("sym", Json.str "C")]])]

def c1Args : Args :=
  { Args.defaults with edge := "callees", node_limit := 2 }

def c1Out : Except TravError (Option PipelineValues) :=
  execute c1Args (fun _ => callableRec)
    (.symbolCrossrefInfoList [⟨"A", c1Rec⟩]) 10

/-- C3: a call chain A → B → C → D explored with `max_depth = 1`. -/
def c3Resolve : String → Json := fun s =>
  if s == "B" then
    Json.obj [("meta", Json.obj [("kind", Json.str "function")]),
      ("callees", Json.arr [Json.obj [("sym", Json.str "C")]])]
  else if s == "C" then
    Json.obj [("meta", Json.obj [("kind", Json.str "function")]),
      ("callees", Json.arr [Json.obj [("sym", Json.str "D")]])]
  else callableRec

def c3Rec : Json :=
  Json.obj [("callees", Json.arr [Json.obj [("sym", Json.str "B")]])]

def c3Args : Args :=
  { Args.defaults with edge := "callees", max_depth := 1 }

def c3Out : Except TravError (Option PipelineValues) :=
  execute c3Args c3Resolve (.symbolCrossrefInfoList [⟨"A", c3Rec⟩]) 10

/-- C7: a record whose `meta.labels` is present but not a string array. -/
def c7Rec : Json :=
  Json.obj [("class", Json.null), ("meta", Json.obj [("labels", Json.num 3)])]

def c7Args : Args :=
  { Args.defaults with edge := "class" }

def c7Out : Except TravError (Option PipelineValues) :=
  execute c7Args (fun _ => Json.null) (.symbolCrossrefInfoList [⟨"A", c7Rec⟩]) 9

/-- C8: paths-between enabled with a single zero-edge seed. -/
def c8Args : Args :=
  { Args.defaults with paths_between := true }

def c8Out : Except TravError (Option PipelineValues) :=
  execute c8Args (fun _ => Json.null) (.symbolCrossrefInfoList [⟨"A", Json.obj []⟩]) 9

/-- C8 witness: the same one-seed run without paths-between. -/
def c8wOut : Except TravError (Option PipelineValues) :=
  execute Args.defaults (fun _ => Json.null) (.symbolCrossrefInfoList [⟨"A", Json.obj []⟩]) 9

def c8wColl : SymbolGraphCollection :=
  (outCollection c8wOut).getD
    { node_set := SymbolGraphNodeSet.new, graphs := [], overloads_hit := [],
      hierarchical_graphs := [] }

/-- C1 witness: a state whose node set already fills a node limit of 1. -/
def c1wArgs : Args :=
  { Args.defaults with node_limit := 1 }

def c1wSt : TState :=
  { sym_node_set := { symbol_crossref_infos :=
      [{ symbol := "A", crossref_info := Json.null, badges := [] }] },
    graph := NamedSymbolGraph.new "only",
    to_traverse := [("A", 0)],
    considered := ["A"],
    overloads_hit := [] }

def c1wStopped : TState :=
  { c1wSt with
    to_traverse := [],
    overloads_hit := c1wSt.overloads_hit ++
      [nodeLimitOverload "A" 0 (effectiveNodeLimit c1wArgs)] }

/-- Whether a symbol is callable as the stages see it in a given node-set
state: from its stored record when present, else from the record the
resolver would supply. -/
def callableOf (resolve : String → Json) (ns : SymbolGraphNodeSet) (s : String) : Bool :=
  (ns.infoOf resolve s).is_callable

/-- C4: an overrides entry walked under edge kind "uses". -/
def c4Rec : Json :=
  Json.obj [("uses", Json.null),
    ("meta", Json.obj [("overrides", Json.arr [Json.obj [("sym", Json.str "B")]])])]

def c4Args : Args :=
  { Args.defaults with edge := "uses" }

def c4Out : Except TravError (Option PipelineValues) :=
  execute c4Args (fun _ => callableRec) (.symbolCrossrefInfoList [⟨"A", c4Rec⟩]) 10

/-- C4 witness: one overrides entry naming a callable target. -/
def c4wEntries : List Json :=
  [Json.obj [("sym", Json.str "B")]]

def c4wOut : Except TravError TState :=
  overridesLoop 8 (fun _ => callableRec) "A" 0 0 TState.initial c4wEntries

def c4wSt : TState :=
  (c4wOut.toOption).getD TState.initial

/-- C5 witness: the same entry against a state that already considered the
target. -/
def c5wSt0 : TState :=
  { TState.initial with considered := ["B"] }

def c5wOut : Except TravError TState :=
  overridesLoop 8 (fun _ => callableRec) "A" 0 0 c5wSt0 c4wEntries

def c5wSt : TState :=
  (c5wOut.toOption).getD TState.initial

/-- C6 witness: a `Recv` slot owner whose record has a paired send slot. -/
def c6wJson : Json :=
  Json.obj [("sym", Json.str "O"), ("slotKind", Json.str "Recv")]

def c6wResolve : String → Json := fun s =>
  if s == "O" then
    Json.obj [("meta", Json.obj [("bindingSlots",
      Json.arr [Json.obj [("slotKind", Json.str "send"), ("sym", Json.str "S")]])])]
  else Json.null

/-- C9 witness: a completed two-node state with one edge between its two
roots. -/
def c9wInfoA : DerivedSymbolInfo :=
  { symbol := "A", crossref_info := Json.null, badges := [] }

def c9wInfoB : DerivedSymbolInfo :=
  { symbol := "B", crossref_info := Json.null, badges := [] }

def c9wSt : TState :=
  { sym_node_set := { symbol_crossref_infos := [c9wInfoA, c9wInfoB] },
    graph := { name := "only", nodes := [0, 1], edges := [(0, 1)] },
    to_traverse := [], considered := ["A", "B"], overloads_hit := [] }

def c9wRoots : List Nat := [0, 1]

/-! ### Invariant predicates over the traversal state -/

/-- What every stage of the per-symbol processing preserves: the node-set
symbol list only ever grows at its end, graph nodes and edges and the
`considered` set only gain members, and the graph keeps its name. -/
def Mono (st st' : TState) : Prop :=
  (∃ tl, symbolsOf st'.sym_node_set = symbolsOf st.sym_node_set ++ tl) ∧
  (∀ n, n ∈ st.graph.nodes → n ∈ st'.graph.nodes) ∧
  (∀ e, e ∈ st.graph.edges → e ∈ st'.graph.edges) ∧
  (∀ s, s ∈ st.considered → s ∈ st'.considered) ∧
  st'.graph.name = st.graph.name

/-- The overload list only ever grows at its end, and within the per-symbol
stages only with `UsesPaths` records. -/
def OvUses (st st' : TState) : Prop :=
  ∃ tl, st'.overloads_hit = st.overloads_hit ++ tl ∧
    ∀ o ∈ tl, o.kind = OverloadKind.usesPaths

/-- What the per-symbol stages may do to the worklist: push entries at
`depth + 1` on top, and only when `depth < maxd`. -/
def Pushes (depth maxd : Nat) (st st' : TState) : Prop :=
  ∃ new, st'.to_traverse = new ++ st.to_traverse ∧
    (∀ e ∈ new, e.2 = depth + 1) ∧ (maxd ≤ depth → new = [])

/-- The composite invariant every per-symbol stage satisfies. -/
def StageOK (depth maxd : Nat) (st st' : TState) : Prop :=
  Mono st st' ∧ OvUses st st' ∧ Pushes depth maxd st st'

/-- The number of `NodeLimit` overload records. -/
def nlCount (l : List OverloadInfo) : Nat :=
  l.countP (fun o => o.kind == OverloadKind.nodeLimit)

/-- What seeding establishes for a seed symbol: it is in the node set, its
node is in the graph, and it is marked considered. -/
def SeedP (st : TState) (sym : String) : Prop :=
  (∃ i, st.sym_node_set.findIdx sym = some i ∧ i ∈ st.graph.nodes) ∧
    sym ∈ st.considered

/-! ### Basic lemmas about the containers -/

theorem findIdx?_append_some (p : α → Bool) (l tl : List α) (i : Nat)
    (h : l.findIdx? p = some i) : (l ++ tl).findIdx? p = some i := by
  rw [List.findIdx?_append, h]
  rfl

theorem findIdx?_getElem (p : α → Bool) (l : List α) (i : Nat)
    (h : l.findIdx? p = some i) : ∃ x, l[i]? = some x ∧ p x = true := by
  induction l generalizing i with
  | nil => simp [List.findIdx?] at h
  | cons x xs ih =>
    rw [List.findIdx?_cons, List.findIdx?_succ] at h
    by_cases hp : p x
    · simp only [hp, if_true, Option.some.injEq] at h
      cases h
      exact ⟨x, by simp, hp⟩
    · simp only [hp, if_false] at h
      obtain ⟨j, hj, rfl⟩ := Option.map_eq_some'.mp h
      obtain ⟨y, hy, hpy⟩ := ih j hj
      exact ⟨y, by simpa using hy, hpy⟩

/-- `findIdx` reads only the symbols of the set. -/
theorem findIdx_eq_symbolsOf (ns : SymbolGraphNodeSet) (s : String) :
    ns.findIdx s = (symbolsOf ns).findIdx? (fun x => x == s) := by
  rw [SymbolGraphNodeSet.findIdx, symbolsOf, List.findIdx?_map]
  rfl

/-- A found index stays found (at the same position) when the symbol list is
extended on the right. -/
theorem findIdx_stable (ns ns' : SymbolGraphNodeSet) (s : String) (i : Nat)
    (hext : ∃ tl, symbolsOf ns' = symbolsOf ns ++ tl)
    (h : ns.findIdx s = some i) : ns'.findIdx s = some i := by
  obtain ⟨tl, htl⟩ := hext
  rw [findIdx_eq_symbolsOf] at h ⊢
  rw [htl]
  exact findIdx?_append_some _ _ _ _ h

/-- Two symbols found at the same index are the same symbol. -/
theorem findIdx_inj (ns : SymbolGraphNodeSet) (a b : String) (i : Nat)
    (ha : ns.findIdx a = some i) (hb : ns.findIdx b = some i) : a = b := by
  rw [findIdx_eq_symbolsOf] at ha hb
  obtain ⟨x, hx, hpx⟩ := findIdx?_getElem _ _ _ ha
  obtain ⟨y, hy, hpy⟩ := findIdx?_getElem _ _ _ hb
  rw [hx] at hy
  cases hy
  rw [beq_iff_eq] at hpx hpy
  rw [← hpx, hpy]

theorem ensure_symbolsOf (ns : SymbolGraphNodeSet) (resolve : String → Json) (s : String) :
    ∃ tl, symbolsOf (ns.ensure_symbol resolve s).2.2 = symbolsOf ns ++ tl := by
  rw [SymbolGraphNodeSet.ensure_symbol]
  cases h : ns.findIdx s with
  | some i => exact ⟨[], by simp⟩
  | none => exact ⟨[s], by simp [symbolsOf]⟩

theorem ensure_info (ns : SymbolGraphNodeSet) (resolve : String → Json) (s : String) :
    (ns.ensure_symbol resolve s).2.1 = ns.infoOf resolve s := by
  rw [SymbolGraphNodeSet.ensure_symbol]
  cases h : ns.findIdx s with
  | some i => rfl
  | none =>
    simp only
    rw [SymbolGraphNodeSet.infoOf]
    cases hf : ns.symbol_crossref_infos.find? (fun i => i.symbol == s) with
    | none => rfl
    | some x =>
      exfalso
      rw [findIdx_eq_symbolsOf] at h
      have hmem := List.find?_some hf
      have hx : x.symbol = s := by rwa [beq_iff_eq] at hmem
      have hmem2 : s ∈ symbolsOf ns := by
        rw [symbolsOf]
        exact hx ▸ List.mem_map_of_mem _ (List.mem_of_find?_eq_some hf)
      rw [List.findIdx?_eq_none_iff] at h
      have := h s hmem2
      simp at this

/-- The record returned by `infoOf` always carries the requested symbol. -/
theorem infoOf_symbol (ns : SymbolGraphNodeSet) (resolve : String → Json) (s : String) :
    (ns.infoOf resolve s).symbol = s := by
  rw [SymbolGraphNodeSet.infoOf]
  cases hf : ns.symbol_crossref_infos.find? (fun i => i.symbol == s) with
  | none => rfl
  | some x => simpa using List.find?_some hf

theorem findIdx?_append_singleton (p : α → Bool) (l : List α) (y : α)
    (h : ∀ x ∈ l, ¬ p x) :
    (l ++ [y]).findIdx? p = if p y then some l.length else none := by
  have hn : l.findIdx? p = none := List.findIdx?_eq_none_iff.mpr (by simpa using h)
  rw [List.findIdx?_append, hn]
  by_cases hy : p y <;> simp [List.findIdx?_cons, hy]

/-- After ensuring a symbol, it is found at the returned id. -/
theorem ensure_findIdx_self (ns : SymbolGraphNodeSet) (resolve : String → Json) (s : String) :
    (ns.ensure_symbol resolve s).2.2.findIdx s = some (ns.ensure_symbol resolve s).1 := by
  rw [SymbolGraphNodeSet.ensure_symbol]
  cases h : ns.findIdx s with
  | some i => simpa using h
  | none =>
    simp only
    rw [findIdx_eq_symbolsOf] at h ⊢
    rw [List.findIdx?_eq_none_iff] at h
    have hsym : symbolsOf { symbol_crossref_infos := ns.symbol_crossref_infos ++
        [{ symbol := s, crossref_info := resolve s, badges := [] }] } = symbolsOf ns ++ [s] := by
      simp [symbolsOf]
    rw [hsym, findIdx?_append_singleton _ _ _ (fun x hx => by simp [h x hx])]
    have hlen : (symbolsOf ns).length = ns.symbol_crossref_infos.length := by
      simp [symbolsOf]
    simp [hlen]

/-- Ensuring one symbol never changes what any symbol's record is or would
be: the record of `t` after the call is the record `t` had or would have
had before it. -/
theorem infoOf_ensure (ns : SymbolGraphNodeSet) (resolve : String → Json) (s t : String) :
    (ns.ensure_symbol resolve s).2.2.infoOf resolve t = ns.infoOf resolve t := by
  rw [SymbolGraphNodeSet.ensure_symbol]
  cases h : ns.findIdx s with
  | some i => rfl
  | none =>
    simp only [SymbolGraphNodeSet.infoOf, List.find?_append]
    cases hf : ns.symbol_crossref_infos.find? (fun i => i.symbol == t) with
    | some x => rfl
    | none =>
      simp only [Option.none_or]
      by_cases hst : s = t
      · subst hst
        simp [List.find?]
      · have : ¬ (({ symbol := s, crossref_info := resolve s, badges := [] } :
            DerivedSymbolInfo).symbol == t) := by simp [hst]
        simp [List.find?, this]

theorem add_symbol_symbolsOf (ns : SymbolGraphNodeSet) (info : DerivedSymbolInfo) :
    symbolsOf (ns.add_symbol info).2 = symbolsOf ns ∨
      symbolsOf (ns.add_symbol info).2 = symbolsOf ns ++ [info.symbol] := by
  rw [SymbolGraphNodeSet.add_symbol]
  cases h : ns.findIdx info.symbol with
  | some i => exact .inl rfl
  | none => exact .inr (by simp [symbolsOf])

/-- After `add_symbol`, the symbol is found at the returned id. -/
theorem add_symbol_findIdx_self (ns : SymbolGraphNodeSet) (info : DerivedSymbolInfo) :
    (ns.add_symbol info).2.findIdx info.symbol = some (ns.add_symbol info).1 := by
  rw [SymbolGraphNodeSet.add_symbol]
  cases h : ns.findIdx info.symbol with
  | some i => simpa using h
  | none =>
    simp only [findIdx_eq_symbolsOf] at h ⊢
    rw [List.findIdx?_eq_none_iff] at h
    have hsym : symbolsOf { symbol_crossref_infos := ns.symbol_crossref_infos ++ [info] } =
        symbolsOf ns ++ [info.symbol] := by simp [symbolsOf]
    rw [hsym, findIdx?_append_singleton _ _ _ (fun x hx => by simp [h x hx])]
    have hlen : (symbolsOf ns).length = ns.symbol_crossref_infos.length := by
      simp [symbolsOf]
    simp [hlen]

theorem listModify_map (f : α → α) (g : α → β) (hfg : ∀ x, g (f x) = g x) :
    ∀ (id : Nat) (l : List α), (listModify f id l).map g = l.map g := by
  intro id l
  induction l generalizing id with
  | nil => cases id <;> rfl
  | cons x xs ih =>
    cases id with
    | zero => simp [listModify, hfg]
    | succ n => simp [listModify, ih n]

theorem pushBadges_symbolsOf (ns : SymbolGraphNodeSet) (id : Nat) (labels : List String) :
    symbolsOf (ns.pushBadges id labels) = symbolsOf ns := by
  rw [SymbolGraphNodeSet.pushBadges, symbolsOf, symbolsOf]
  exact listModify_map (fun i => { i with badges := i.badges ++ labels })
    (fun i => i.symbol) (fun x => rfl) id ns.symbol_crossref_infos

theorem ensure_node_name (g : NamedSymbolGraph) (n : Nat) :
    (g.ensure_node n).name = g.name := by
  rw [NamedSymbolGraph.ensure_node]
  by_cases h : n ∈ g.nodes
  · rw [if_pos h]
  · rw [if_neg h]

theorem ensure_node_edges (g : NamedSymbolGraph) (n : Nat) :
    (g.ensure_node n).edges = g.edges := by
  rw [NamedSymbolGraph.ensure_node]
  by_cases h : n ∈ g.nodes
  · rw [if_pos h]
  · rw [if_neg h]

theorem mem_ensure_node_self (g : NamedSymbolGraph) (n : Nat) :
    n ∈ (g.ensure_node n).nodes := by
  rw [NamedSymbolGraph.ensure_node]
  by_cases h : n ∈ g.nodes
  · rw [if_pos h]
    exact h
  · rw [if_neg h]
    exact List.mem_append.mpr (.inr (by simp))

theorem mem_ensure_node_mono (g : NamedSymbolGraph) (n m : Nat) (h : m ∈ g.nodes) :
    m ∈ (g.ensure_node n).nodes := by
  rw [NamedSymbolGraph.ensure_node]
  by_cases hn : n ∈ g.nodes
  · rw [if_pos hn]
    exact h
  · rw [if_neg hn]
    exact List.mem_append.mpr (.inl h)

theorem add_edge_name (g : NamedSymbolGraph) (a b : Nat) :
    (g.add_edge a b).name = g.name := by
  rw [NamedSymbolGraph.add_edge]
  simp only [ensure_node_edges]
  by_cases h : (a, b) ∈ g.edges
  · rw [if_pos h, ensure_node_name, ensure_node_name]
  · rw [if_neg h]
    simp only
    rw [ensure_node_name, ensure_node_name]

theorem add_edge_nodes_mono (g : NamedSymbolGraph) (a b m : Nat) (h : m ∈ g.nodes) :
    m ∈ (g.add_edge a b).nodes := by
  rw [NamedSymbolGraph.add_edge]
  simp only [ensure_node_edges]
  by_cases he : (a, b) ∈ g.edges
  · rw [if_pos he]
    exact mem_ensure_node_mono _ _ _ (mem_ensure_node_mono _ _ _ h)
  · rw [if_neg he]
    exact mem_ensure_node_mono _ _ _ (mem_ensure_node_mono _ _ _ h)

/-- The edges after `add_edge`: the old ones, plus exactly the new pair. -/
theorem mem_add_edge_iff (g : NamedSymbolGraph) (a b : Nat) (e : Nat × Nat) :
    e ∈ (g.add_edge a b).edges ↔ e ∈ g.edges ∨ e = (a, b) := by
  rw [NamedSymbolGraph.add_edge]
  simp only [ensure_node_edges]
  by_cases h : (a, b) ∈ g.edges
  · rw [if_pos h, ensure_node_edges, ensure_node_edges]
    constructor
    · exact fun hm => .inl hm
    · rintro (hm | rfl)
      · exact hm
      · exact h
  · rw [if_neg h]
    simp only [ensure_node_edges, List.mem_append, List.mem_singleton]

theorem add_edge_edges_mono (g : NamedSymbolGraph) (a b : Nat) (e : Nat × Nat)
    (h : e ∈ g.edges) : e ∈ (g.add_edge a b).edges :=
  (mem_add_edge_iff g a b e).mpr (.inl h)

theorem mem_add_edge_self (g : NamedSymbolGraph) (a b : Nat) :
    (a, b) ∈ (g.add_edge a b).edges :=
  (mem_add_edge_iff g a b (a, b)).mpr (.inr rfl)

theorem consideredInsert_mono (c : List String) (s t : String) (h : t ∈ c) :
    t ∈ (consideredInsert c s).2 := by
  rw [consideredInsert]
  split
  · exact h
  · exact List.mem_cons_of_mem _ h

theorem consideredInsert_cases (c : List String) (s : String) :
    (consideredInsert c s).2 = c ∨ (consideredInsert c s).2 = s :: c := by
  rw [consideredInsert]
  split
  · exact .inl rfl
  · exact .inr rfl

theorem consideredInsert_fresh (c : List String) (s : String) (h : s ∉ c) :
    consideredInsert c s = (true, s :: c) := by
  rw [consideredInsert, if_neg h]

theorem consideredInsert_stale (c : List String) (s : String) (h : s ∈ c) :
    consideredInsert c s = (false, c) := by
  rw [consideredInsert, if_pos h]

/-! ### Monotonicity of the traversal state -/

theorem mono_refl (st : TState) : Mono st st :=
  ⟨⟨[], by simp⟩, fun _ h => h, fun _ h => h, fun _ h => h, rfl⟩

theorem mono_trans {a b c : TState} (h1 : Mono a b) (h2 : Mono b c) : Mono a c := by
  obtain ⟨⟨t1, ht1⟩, hn1, he1, hc1, hm1⟩ := h1
  obtain ⟨⟨t2, ht2⟩, hn2, he2, hc2, hm2⟩ := h2
  exact ⟨⟨t1 ++ t2, by rw [ht2, ht1, List.append_assoc]⟩,
    fun n h => hn2 n (hn1 n h), fun e h => he2 e (he1 e h),
    fun s h => hc2 s (hc1 s h), hm2.trans hm1⟩

/-- A state whose monotone components are untouched is monotone. -/
theorem mono_same {st st' : TState}
    (hns : st'.sym_node_set = st.sym_node_set)
    (hg : st'.graph = st.graph)
    (hc : st'.considered = st.considered) : Mono st st' := by
  refine ⟨⟨[], by rw [hns]; simp⟩, ?_, ?_, ?_, by rw [hg]⟩ <;> intro x h
  · rwa [hg]
  · rwa [hg]
  · rwa [hc]

theorem mono_ensure (st : TState) (resolve : String → Json) (s : String) :
    Mono st { st with sym_node_set := (st.sym_node_set.ensure_symbol resolve s).2.2 } :=
  ⟨ensure_symbolsOf _ _ _, fun _ h => h, fun _ h => h, fun _ h => h, rfl⟩

theorem mono_maybeSchedule (maxd : Nat) (st : TState) (s : String) (d : Nat) :
    Mono st (maybeSchedule maxd st s d) := by
  by_cases hd : d < maxd
  · by_cases hs : s ∈ st.considered
    · rw [maybeSchedule, if_pos hd]
      simp only [consideredInsert_stale _ _ hs]
      exact mono_refl st
    · rw [maybeSchedule, if_pos hd]
      simp only [consideredInsert_fresh _ _ hs]
      exact ⟨⟨[], by simp⟩, fun _ h => h, fun _ h => h,
        fun t h => List.mem_cons_of_mem _ h, rfl⟩
  · rw [maybeSchedule, if_neg hd]
    exact mono_refl st

theorem mono_add_edge (st : TState) (a b : Nat) :
    Mono st { st with graph := st.graph.add_edge a b } :=
  ⟨⟨[], by simp⟩, fun n h => add_edge_nodes_mono _ _ _ _ h,
    fun e h => add_edge_edges_mono _ _ _ _ h, fun _ h => h, add_edge_name _ _ _⟩

theorem stageOK_refl (depth maxd : Nat) (st : TState) : StageOK depth maxd st st :=
  ⟨mono_refl st, ⟨[], by simp, by simp⟩, ⟨[], by simp, by simp, fun _ => rfl⟩⟩

theorem stageOK_trans {depth maxd : Nat} {a b c : TState}
    (h1 : StageOK depth maxd a b) (h2 : StageOK depth maxd b c) :
    StageOK depth maxd a c := by
  obtain ⟨m1, ⟨o1, ho1, ho1k⟩, ⟨p1, hp1, hp1d, hp1e⟩⟩ := h1
  obtain ⟨m2, ⟨o2, ho2, ho2k⟩, ⟨p2, hp2, hp2d, hp2e⟩⟩ := h2
  refine ⟨mono_trans m1 m2, ⟨o1 ++ o2, ?_, ?_⟩, ⟨p2 ++ p1, ?_, ?_, ?_⟩⟩
  · rw [ho2, ho1, List.append_assoc]
  · intro o ho
    rcases List.mem_append.mp ho with h | h
    · exact ho1k o h
    · exact ho2k o h
  · rw [hp2, hp1, List.append_assoc]
  · intro e he
    rcases List.mem_append.mp he with h | h
    · exact hp2d e h
    · exact hp1d e h
  · intro hle
    rw [hp2e hle, hp1e hle]
    rfl

/-- A stage step that keeps the overload list and worklist is `StageOK` as
soon as it is monotone. -/
theorem stageOK_of_mono {depth maxd : Nat} {st st' : TState} (hm : Mono st st')
    (hov : st'.overloads_hit = st.overloads_hit)
    (htt : st'.to_traverse = st.to_traverse) : StageOK depth maxd st st' :=
  ⟨hm, ⟨[], by simp [hov], by simp⟩, ⟨[], by simp [htt], by simp, fun _ => rfl⟩⟩

theorem stageOK_ensure (depth maxd : Nat) (st : TState) (resolve : String → Json) (s : String) :
    StageOK depth maxd st { st with sym_node_set := (st.sym_node_set.ensure_symbol resolve s).2.2 } :=
  stageOK_of_mono (mono_ensure st resolve s) rfl rfl

theorem stageOK_add_edge (depth maxd : Nat) (st : TState) (a b : Nat) :
    StageOK depth maxd st { st with graph := st.graph.add_edge a b } :=
  stageOK_of_mono (mono_add_edge st a b) rfl rfl

theorem stageOK_maybeSchedule (maxd : Nat) (st : TState) (s : String) (depth : Nat) :
    StageOK depth maxd st (maybeSchedule maxd st s depth) := by
  by_cases hd : depth < maxd
  · by_cases hs : s ∈ st.considered
    · rw [maybeSchedule, if_pos hd]
      simp only [consideredInsert_stale _ _ hs]
      exact stageOK_refl _ _ _
    · rw [maybeSchedule, if_pos hd]
      simp only [consideredInsert_fresh _ _ hs]
      refine ⟨⟨⟨[], by simp⟩, fun _ h => h, fun _ h => h,
        fun t h => List.mem_cons_of_mem _ h, rfl⟩, ⟨[], by simp, by simp⟩,
        ⟨[(s, depth + 1)], by simp, by simp, fun hle => absurd hd (by omega)⟩⟩
  · rw [maybeSchedule, if_neg hd]
    exact stageOK_refl _ _ _

theorem stageOK_pointerTargets (maxd : Nat) (resolve : String → Json) (depth : Nat)
    (ps : List StructuredPointerInfo) : ∀ st : TState,
    StageOK depth maxd st (processPointerTargets maxd resolve depth st ps).1 := by
  induction ps with
  | nil => exact fun st => stageOK_refl _ _ _
  | cons p ps ih =>
    intro st
    have hred : (processPointerTargets maxd resolve depth st (p :: ps)).1 =
        (processPointerTargets maxd resolve depth
          (maybeSchedule maxd
            { st with sym_node_set := (st.sym_node_set.ensure_symbol resolve p.sym).2.2 }
            p.sym depth) ps).1 := rfl
    rw [hred]
    exact stageOK_trans (stageOK_ensure depth maxd st resolve p.sym)
      (stageOK_trans (stageOK_maybeSchedule maxd _ p.sym depth) (ih _))

theorem foldl_add_edge_facts (fid : Nat) (l : List Nat) : ∀ g : NamedSymbolGraph,
    (∀ e ∈ g.edges, e ∈ (l.foldl (fun g tid => g.add_edge fid tid) g).edges) ∧
    (∀ n ∈ g.nodes, n ∈ (l.foldl (fun g tid => g.add_edge fid tid) g).nodes) ∧
    (l.foldl (fun g tid => g.add_edge fid tid) g).name = g.name := by
  induction l with
  | nil => exact fun g => ⟨fun e h => h, fun n h => h, rfl⟩
  | cons t ts ih =>
    intro g
    refine ⟨fun e h => ?_, fun n h => ?_, ?_⟩
    · exact (ih (g.add_edge fid t)).1 e (add_edge_edges_mono _ _ _ _ h)
    · exact (ih (g.add_edge fid t)).2.1 n (add_edge_nodes_mono _ _ _ _ h)
    · rw [List.foldl_cons, (ih (g.add_edge fid t)).2.2, add_edge_name]

theorem stageOK_processField (maxd : Nat) (resolve : String → Json) (depth : Nat)
    (st : TState) (field : StructuredFieldInfo) :
    StageOK depth maxd st (processField maxd resolve depth st field) := by
  rw [processField]
  refine stageOK_trans (stageOK_pointerTargets maxd resolve depth field.pointer_info st) ?_
  set st1 := (processPointerTargets maxd resolve depth st field.pointer_info).1
  by_cases hs : (field.labels.length > 0 || field.pointer_info.length > 0) = true
  · simp only [hs, if_true]
    refine stageOK_of_mono ⟨?_, ?_, ?_, fun s h => h, ?_⟩ rfl rfl
    · rw [pushBadges_symbolsOf]
      exact ensure_symbolsOf _ _ _
    · exact fun n h => (foldl_add_edge_facts _ _ _).2.1 n h
    · exact fun e h => (foldl_add_edge_facts _ _ _).1 e h
    · exact (foldl_add_edge_facts _ _ _).2.2
  · simp only [hs, if_false]
    exact stageOK_refl _ _ _

theorem stageOK_foldl_processField (maxd : Nat) (resolve : String → Json) (depth : Nat)
    (fields : List StructuredFieldInfo) : ∀ st : TState,
    StageOK depth maxd st (fields.foldl (processField maxd resolve depth) st) := by
  induction fields with
  | nil => exact fun st => stageOK_refl _ _ _
  | cons f fs ih =>
    intro st
    rw [List.foldl_cons]
    exact stageOK_trans (stageOK_processField maxd resolve depth st f) (ih _)

theorem stageOK_classStage (args : Args) (resolve : String → Json) (st : TState)
    (info : DerivedSymbolInfo) (depth : Nat) (out : TState × Bool)
    (h : classStage args resolve st info depth = .ok out) :
    StageOK depth args.max_depth st out.1 := by
  have hfields : ∀ o : TState × Bool,
      (match info.crossref_info.pointer ["meta", "fields"] with
      | some fieldsJson =>
        match parseFieldInfos fieldsJson with
        | none => Except.error TravError.parseFail
        | some fields =>
          Except.ok (fields.foldl (processField args.max_depth resolve depth) st, true)
      | none => Except.ok (st, true)) = .ok o → StageOK depth args.max_depth st o.1 := by
    intro o hout
    split at hout
    · split at hout
      · cases hout
      · cases hout
        exact stageOK_foldl_processField _ _ _ _ _
    · cases hout
      exact stageOK_refl _ _ _
  rw [classStage] at h
  by_cases he : (args.edge == "class") = true
  · rw [he, if_pos rfl] at h
    simp only at h
    split at h
    · split at h
      · cases h
      · split at h
        · cases h
          exact stageOK_refl _ _ _
        · exact hfields out h
    · exact hfields out h
  · rw [Bool.not_eq_true] at he
    rw [he, if_neg (by simp)] at h
    cases h
    exact stageOK_refl _ _ _

theorem stageOK_slotOwnerStage (args : Args) (resolve : String → Json) (st : TState)
    (symId : Nat) (depth : Nat) (slotOwnerJson : Option Json) (out : TState × Bool)
    (h : slotOwnerStage args resolve st symId depth slotOwnerJson = .ok out) :
    StageOK depth args.max_depth st out.1 := by
  rw [slotOwnerStage.eq_def] at h
  split at h
  · cases h
    exact stageOK_refl _ _ _
  · split at h
    · cases h
    · simp only at h
      split at h
      · split at h
        · split at h
          · cases h
            exact stageOK_trans (stageOK_ensure _ _ _ _ _)
              (stageOK_trans (stageOK_ensure _ _ _ _ _)
                (stageOK_trans (stageOK_add_edge _ _ _ _ _) (stageOK_maybeSchedule _ _ _ _)))
          · cases h
            exact stageOK_ensure _ _ _ _ _
        · cases h
          exact stageOK_trans (stageOK_ensure _ _ _ _ _)
            (stageOK_trans (stageOK_add_edge _ _ _ _ _) (stageOK_maybeSchedule _ _ _ _))
      · cases h
        exact stageOK_refl _ _ _

theorem stageOK_ontologyRelLoop (maxd : Nat) (resolve : String → Json) (symId : Nat)
    (depth : Nat) (upwards : Bool) (rels : List String) : ∀ st : TState,
    StageOK depth maxd st (ontologyRelLoop maxd resolve symId depth upwards st rels) := by
  induction rels with
  | nil => exact fun st => stageOK_refl _ _ _
  | cons rel rest ih =>
    intro st
    cases upwards
    · exact stageOK_trans (stageOK_ensure depth maxd st resolve rel)
        (stageOK_trans (stageOK_add_edge depth maxd _ symId ((st.sym_node_set.ensure_symbol resolve rel).1))
          (stageOK_trans (stageOK_maybeSchedule maxd _ rel depth) (ih _)))
    · exact stageOK_trans (stageOK_ensure depth maxd st resolve rel)
        (stageOK_trans (stageOK_add_edge depth maxd _ ((st.sym_node_set.ensure_symbol resolve rel).1) symId)
          (stageOK_trans (stageOK_maybeSchedule maxd _ rel depth) (ih _)))

theorem stageOK_ontologySlotLoop (args : Args) (resolve : String → Json) (symId : Nat)
    (depth : Nat) (slots : List Json) : ∀ (st : TState) (kg : Bool) (out : TState × Bool),
    ontologySlotLoop args resolve symId depth st kg slots = .ok out →
    StageOK depth args.max_depth st out.1 := by
  induction slots with
  | nil =>
    intro st kg out h
    rw [ontologySlotLoop] at h
    cases h
    exact stageOK_refl _ _ _
  | cons slotJson rest ih =>
    intro st kg out h
    rw [ontologySlotLoop] at h
    split at h
    · cases h
    · simp only at h
      split at h
      · exact stageOK_trans (stageOK_ontologyRelLoop _ _ _ _ _ _ _) (ih _ _ _ h)
      · exact ih _ _ _ h

theorem stageOK_ontologyStage (args : Args) (resolve : String → Json) (st : TState)
    (sym : String) (depth : Nat) (out : TState × Bool)
    (h : ontologyStage args resolve st sym depth = .ok out) :
    StageOK depth args.max_depth st out.1 := by
  rw [ontologyStage] at h
  split at h
  · exact stageOK_trans (stageOK_ensure _ _ _ _ _)
      (stageOK_ontologySlotLoop _ _ _ _ _ _ _ _ h)
  · cases h
    exact stageOK_ensure _ _ _ _ _

theorem stageOK_overridesLoop (maxd : Nat) (resolve : String → Json) (rootSym : String)
    (symId : Nat) (depth : Nat) (entries : List Json) : ∀ (st st' : TState),
    overridesLoop maxd resolve rootSym symId depth st entries = .ok st' →
    StageOK depth maxd st st' := by
  induction entries with
  | nil =>
    intro st st' h
    rw [overridesLoop] at h
    cases h
    exact stageOK_refl _ _ _
  | cons target rest ih =>
    intro st st' h
    cases hts : (target.getKey "sym").asStr with
    | none =>
      rw [overridesLoop, hts] at h
      simp only at h
      cases h
    | some target_sym =>
      rw [overridesLoop, hts] at h
      simp only at h
      refine stageOK_trans ?_ (ih _ _ h)
      refine stageOK_trans (stageOK_ensure depth maxd st resolve target_sym) ?_
      set st1 : TState :=
        { st with sym_node_set := (st.sym_node_set.ensure_symbol resolve target_sym).2.2 }
        with hst1
      set tinfo := (st.sym_node_set.ensure_symbol resolve target_sym).2.1 with htinfo
      set tid := (st.sym_node_set.ensure_symbol resolve target_sym).1 with htid
      by_cases hc : tinfo.is_callable = true
      · rw [hc, if_pos rfl]
        by_cases hmem : tinfo.symbol ∈ st1.considered
        · rw [consideredInsert_stale _ _ hmem]
          exact stageOK_refl _ _ _
        · rw [consideredInsert_fresh _ _ hmem]
          simp only
          have hmid : StageOK depth maxd st1
              { st1 with
                considered := tinfo.symbol :: st1.considered,
                graph := st1.graph.add_edge tid symId } :=
            ⟨⟨⟨[], by simp⟩, fun n hn => add_edge_nodes_mono _ _ _ _ hn,
              fun e he => add_edge_edges_mono _ _ _ _ he,
              fun s hs => List.mem_cons_of_mem _ hs, add_edge_name _ _ _⟩,
              ⟨[], by simp, by simp⟩, ⟨[], by simp, by simp, fun _ => rfl⟩⟩
          by_cases hd : depth < maxd
          · rw [if_pos hd]
            refine stageOK_trans hmid ⟨mono_same rfl rfl rfl, ⟨[], by simp, by simp⟩,
              ⟨[(tinfo.symbol, depth + 1)], by simp, by simp, fun hle => absurd hd (by omega)⟩⟩
          · rw [if_neg hd]
            exact hmid
      · rw [Bool.not_eq_true] at hc
        rw [hc, if_neg (by simp)]
        exact stageOK_refl _ _ _

theorem stageOK_overridesStage (maxd : Nat) (resolve : String → Json) (rootSym : String)
    (symId : Nat) (depth : Nat) (st st' : TState) (ovJson : Json)
    (h : overridesStage maxd resolve rootSym symId depth st ovJson = .ok st') :
    StageOK depth maxd st st' := by
  rw [overridesStage] at h
  split at h
  · cases h
    exact stageOK_refl _ _ _
  · exact stageOK_overridesLoop _ _ _ _ _ _ _ _ h

theorem stageOK_overriddenByLoop (maxd : Nat) (resolve : String → Json) (rootSym : String)
    (symId : Nat) (depth : Nat) (entries : List Json) : ∀ (st st' : TState),
    overriddenByLoop maxd resolve rootSym symId depth st entries = .ok st' →
    StageOK depth maxd st st' := by
  induction entries with
  | nil =>
    intro st st' h
    rw [overriddenByLoop] at h
    cases h
    exact stageOK_refl _ _ _
  | cons target rest ih =>
    intro st st' h
    cases hts : target.asStr with
    | none =>
      rw [overriddenByLoop, hts] at h
      simp only at h
      cases h
    | some target_sym =>
      rw [overriddenByLoop, hts] at h
      simp only at h
      refine stageOK_trans ?_ (ih _ _ h)
      refine stageOK_trans (stageOK_ensure depth maxd st resolve target_sym) ?_
      set st1 : TState :=
        { st with sym_node_set := (st.sym_node_set.ensure_symbol resolve target_sym).2.2 }
        with hst1
      set tinfo := (st.sym_node_set.ensure_symbol resolve target_sym).2.1 with htinfo
      set tid := (st.sym_node_set.ensure_symbol resolve target_sym).1 with htid
      by_cases hc : tinfo.is_callable = true
      · rw [hc, if_pos rfl]
        by_cases hmem : tinfo.symbol ∈ st1.considered
        · rw [consideredInsert_stale _ _ hmem]
          exact stageOK_refl _ _ _
        · rw [consideredInsert_fresh _ _ hmem]
          simp only
          have hmid : StageOK depth maxd st1
              { st1 with
                considered := tinfo.symbol :: st1.considered,
                graph := st1.graph.add_edge tid symId } :=
            ⟨⟨⟨[], by simp⟩, fun n hn => add_edge_nodes_mono _ _ _ _ hn,
              fun e he => add_edge_edges_mono _ _ _ _ he,
              fun s hs => List.mem_cons_of_mem _ hs, add_edge_name _ _ _⟩,
              ⟨[], by simp, by simp⟩, ⟨[], by simp, by simp, fun _ => rfl⟩⟩
          by_cases hd : depth < maxd
          · rw [if_pos hd]
            refine stageOK_trans hmid ⟨mono_same rfl rfl rfl, ⟨[], by simp, by simp⟩,
              ⟨[(tinfo.symbol, depth + 1)], by simp, by simp, fun hle => absurd hd (by omega)⟩⟩
          · rw [if_neg hd]
            exact hmid
      · rw [Bool.not_eq_true] at hc
        rw [hc, if_neg (by simp)]
        exact stageOK_refl _ _ _

theorem stageOK_overriddenByStage (args : Args) (resolve : String → Json) (rootSym : String)
    (symId : Nat) (depth : Nat) (st st' : TState) (obJson : Json)
    (h : overriddenByStage args resolve rootSym symId depth st obJson = .ok st') :
    StageOK depth args.max_depth st st' := by
  rw [overriddenByStage] at h
  split at h
  · split at h
    · cases h
      exact stageOK_refl _ _ _
    · exact stageOK_overriddenByLoop _ _ _ _ _ _ _ _ h
  · cases h
    exact stageOK_refl _ _ _

theorem stageOK_calleesLoop (maxd : Nat) (resolve : String → Json) (rootSym : String)
    (symId : Nat) (depth : Nat) (entries : List Json) : ∀ (st st' : TState),
    calleesLoop maxd resolve rootSym symId depth st entries = .ok st' →
    StageOK depth maxd st st' := by
  induction entries with
  | nil =>
    intro st st' h
    rw [calleesLoop] at h
    cases h
    exact stageOK_refl _ _ _
  | cons target rest ih =>
    intro st st' h
    cases hts : (target.getKey "sym").asStr with
    | none =>
      rw [calleesLoop, hts] at h
      simp only at h
      cases h
    | some target_sym =>
      rw [calleesLoop, hts] at h
      simp only at h
      refine stageOK_trans ?_ (ih _ _ h)
      refine stageOK_trans (stageOK_ensure depth maxd st resolve target_sym) ?_
      set st1 : TState :=
        { st with sym_node_set := (st.sym_node_set.ensure_symbol resolve target_sym).2.2 }
        with hst1
      set tinfo := (st.sym_node_set.ensure_symbol resolve target_sym).2.1 with htinfo
      by_cases hc : tinfo.is_callable = true
      · rw [hc, if_pos rfl]
        exact stageOK_trans (stageOK_add_edge depth maxd st1 symId _)
          (stageOK_maybeSchedule _ _ _ _)
      · rw [Bool.not_eq_true] at hc
        rw [hc, if_neg (by simp)]
        exact stageOK_refl _ _ _

theorem stageOK_usesHitLoop (maxd : Nat) (resolve : String → Json) (symId : Nat)
    (depth : Nat) (hits : List Json) : ∀ (st : TState) (uc : List String),
    StageOK depth maxd st (usesHitLoop maxd resolve symId depth st uc hits).1 := by
  induction hits with
  | nil => exact fun st uc => stageOK_refl _ _ _
  | cons source rest ih =>
    intro st uc
    rw [usesHitLoop]
    by_cases hemp : (((source.getKey "contextsym").asStr).getD "" == "") = true
    · rw [hemp, if_pos rfl]
      exact ih _ _
    · rw [Bool.not_eq_true] at hemp
      rw [hemp, if_neg (by simp)]
      simp only
      set s := ((source.getKey "contextsym").asStr).getD "" with hs
      set st1 : TState :=
        { st with sym_node_set := (st.sym_node_set.ensure_symbol resolve s).2.2 } with hst1
      set sinfo := (st.sym_node_set.ensure_symbol resolve s).2.1 with hsinfo
      by_cases hc : sinfo.is_callable = true
      · rw [hc, if_pos rfl]
        by_cases hmem : sinfo.symbol ∈ uc
        · rw [consideredInsert_stale _ _ hmem]
          simp only
          exact stageOK_trans (stageOK_ensure depth maxd st resolve s) (ih _ _)
        · rw [consideredInsert_fresh _ _ hmem]
          simp only
          rw [if_pos trivial]
          refine stageOK_trans (stageOK_ensure depth maxd st resolve s) ?_
          refine stageOK_trans
            (stageOK_add_edge depth maxd st1 ((st.sym_node_set.ensure_symbol resolve s).1) symId) ?_
          exact stageOK_trans (stageOK_maybeSchedule _ _ _ _) (ih _ _)
      · rw [Bool.not_eq_true] at hc
        rw [hc, if_neg (by simp)]
        exact stageOK_trans (stageOK_ensure depth maxd st resolve s) (ih _ _)

theorem stageOK_usesGroupLoop (maxd : Nat) (resolve : String → Json) (rootSym : String)
    (symId : Nat) (depth : Nat) (groups : List Json) : ∀ (st st' : TState) (uc : List String),
    usesGroupLoop maxd resolve rootSym symId depth st uc groups = .ok st' →
    StageOK depth maxd st st' := by
  induction groups with
  | nil =>
    intro st st' uc h
    rw [usesGroupLoop] at h
    cases h
    exact stageOK_refl _ _ _
  | cons path_hits rest ih =>
    intro st st' uc h
    cases hl : (path_hits.getKey "lines").asArray with
    | none =>
      rw [usesGroupLoop, hl] at h
      simp only at h
      cases h
    | some hits =>
      rw [usesGroupLoop, hl] at h
      simp only at h
      exact stageOK_trans (stageOK_usesHitLoop _ _ _ _ _ _ _) (ih _ _ _ h)

theorem stageOK_explicitStage (args : Args) (resolve : String → Json) (rootSym : String)
    (symId : Nat) (depth : Nat) (st st' : TState) (edgesJson : Json)
    (h : explicitStage args resolve rootSym symId depth st edgesJson = .ok st') :
    StageOK depth args.max_depth st st' := by
  rw [explicitStage] at h
  split at h
  · cases h
    exact stageOK_refl _ _ _
  · split at h
    · exact stageOK_calleesLoop _ _ _ _ _ _ _ _ h
    · split at h
      · split at h
        · cases h
          refine ⟨mono_same rfl rfl rfl, ⟨_, rfl, ?_⟩,
            ⟨[], by simp, by simp, fun _ => rfl⟩⟩
          intro o ho
          rw [List.mem_singleton] at ho
          subst ho
          rfl
        · exact stageOK_usesGroupLoop _ _ _ _ _ _ _ _ _ h
      · cases h
        exact stageOK_refl _ _ _

/-- The whole per-symbol body satisfies the stage invariant. -/
theorem stageOK_processSymbol (args : Args) (resolve : String → Json) (st : TState)
    (sym : String) (depth : Nat) (st' : TState)
    (h : processSymbol args resolve st sym depth = .ok st') :
    StageOK depth args.max_depth st st' := by
  rw [processSymbol] at h
  refine stageOK_trans (stageOK_ensure depth args.max_depth st resolve sym) ?_
  split at h
  · cases h
  · next hcs =>
    cases h
    exact stageOK_classStage _ _ _ _ _ _ hcs
  · next st0 hcs =>
    split at h
    · cases h
    · next hso =>
      cases h
      exact stageOK_trans (stageOK_classStage _ _ _ _ _ _ hcs)
        (stageOK_slotOwnerStage _ _ _ _ _ _ _ hso)
    · next st1 hso =>
      split at h
      · cases h
      · next hon =>
        cases h
        exact stageOK_trans (stageOK_classStage _ _ _ _ _ _ hcs)
          (stageOK_trans (stageOK_slotOwnerStage _ _ _ _ _ _ _ hso)
            (stageOK_ontologyStage _ _ _ _ _ _ hon))
      · next st2 hon =>
        split at h
        · cases h
        · next st3 hov =>
          split at h
          · cases h
          · next st4 hob =>
            exact stageOK_trans (stageOK_classStage _ _ _ _ _ _ hcs)
              (stageOK_trans (stageOK_slotOwnerStage _ _ _ _ _ _ _ hso)
                (stageOK_trans (stageOK_ontologyStage _ _ _ _ _ _ hon)
                  (stageOK_trans (stageOK_overridesStage _ _ _ _ _ _ _ _ hov)
                    (stageOK_trans (stageOK_overriddenByStage _ _ _ _ _ _ _ _ hob)
                      (stageOK_explicitStage _ _ _ _ _ _ _ _ h)))))

/-! ### The driver loop -/

/-- A successful driver-loop run only grows the node set, graph and
`considered` set. -/
theorem traverseLoop_mono (args : Args) (resolve : String → Json) :
    ∀ (fuel : Nat) (st st' : TState),
    traverseLoop args resolve fuel st = .ok (some st') → Mono st st' := by
  intro fuel
  induction fuel with
  | zero =>
    intro st st' h
    rw [traverseLoop] at h
    cases h
  | succ fuel ih =>
    intro st st' h
    rw [traverseLoop] at h
    split at h
    · cases h
      exact mono_refl _
    · simp only at h
      split at h
      · cases h
        exact mono_same rfl rfl rfl
      · split at h
        · cases h
        · next hps =>
          exact mono_trans (mono_trans (mono_same rfl rfl rfl)
            (stageOK_processSymbol _ _ _ _ _ _ hps).1) (ih _ _ h)

theorem nlCount_append (l tl : List OverloadInfo) :
    nlCount (l ++ tl) = nlCount l + nlCount tl := by
  rw [nlCount, nlCount, nlCount, List.countP_append]

theorem nlCount_usesOnly (tl : List OverloadInfo)
    (h : ∀ o ∈ tl, o.kind = OverloadKind.usesPaths) : nlCount tl = 0 := by
  rw [nlCount, List.countP_eq_zero]
  intro o ho
  rw [h o ho]
  simp

/-- A successful driver-loop run records at most one new `NodeLimit`
overload, and when it records one the remaining worklist was discarded. -/
theorem traverseLoop_nlCount (args : Args) (resolve : String → Json) :
    ∀ (fuel : Nat) (st st' : TState),
    traverseLoop args resolve fuel st = .ok (some st') →
    nlCount st'.overloads_hit ≤ nlCount st.overloads_hit + 1 ∧
      (nlCount st.overloads_hit < nlCount st'.overloads_hit → st'.to_traverse = []) := by
  intro fuel
  induction fuel with
  | zero =>
    intro st st' h
    rw [traverseLoop] at h
    cases h
  | succ fuel ih =>
    intro st st' h
    rw [traverseLoop] at h
    split at h
    · cases h
      exact ⟨Nat.le_succ _, fun hlt => absurd hlt (Nat.lt_irrefl _)⟩
    · simp only at h
      split at h
      · cases h
        have hone : ∀ (s : String) (r : Nat),
            nlCount [nodeLimitOverload s r (effectiveNodeLimit args)] = 1 := by
          intro s r
          rw [nlCount, nodeLimitOverload]
          simp
        constructor
        · simp only [nlCount_append, hone]
          exact Nat.le_refl _
        · intro _
          rfl
      · split at h
        · cases h
        · next st2 hps =>
          obtain ⟨tl, htl, htlk⟩ := (stageOK_processSymbol _ _ _ _ _ _ hps).2.1
          have heq : nlCount st2.overloads_hit = nlCount st.overloads_hit := by
            simp [htl, nlCount_append, nlCount_usesOnly tl htlk]
          obtain ⟨h1, h2⟩ := ih _ _ h
          rw [heq] at h1 h2
          exact ⟨h1, h2⟩

/-- The node-limit trip: with the limit reached and an entry just dequeued,
the loop emits exactly one `NodeLimit` overload naming that symbol and the
remaining worklist size, discards the worklist and stops. -/
theorem traverseLoop_trip (args : Args) (resolve : String → Json) (fuel : Nat)
    (st : TState) (sym : String) (depth : Nat) (rest : List (String × Nat))
    (hq : st.to_traverse = (sym, depth) :: rest)
    (hlim : effectiveNodeLimit args ≤ st.sym_node_set.symbol_crossref_infos.length) :
    traverseLoop args resolve (fuel + 1) st = .ok (some
      { st with
        to_traverse := [],
        overloads_hit := st.overloads_hit ++
          [nodeLimitOverload sym rest.length (effectiveNodeLimit args)] }) := by
  rw [traverseLoop, hq]
  simp only
  rw [if_pos hlim]

/-! ### Seeding -/

theorem consideredInsert_self (c : List String) (s : String) :
    s ∈ (consideredInsert c s).2 := by
  by_cases h : s ∈ c
  · rw [consideredInsert_stale _ _ h]
    exact h
  · rw [consideredInsert_fresh _ _ h]
    exact List.mem_cons_self _ _

/-- A symbol found at an index has a record with that symbol stored there. -/
theorem findIdx_get (ns : SymbolGraphNodeSet) (s : String) (i : Nat)
    (h : ns.findIdx s = some i) :
    ∃ info, ns.get i = some info ∧ info.symbol = s := by
  rw [SymbolGraphNodeSet.findIdx] at h
  obtain ⟨x, hx, hpx⟩ := findIdx?_getElem _ _ _ h
  exact ⟨x, hx, by rwa [beq_iff_eq] at hpx⟩

theorem seedP_mono {st st' : TState} {s : String} (hm : Mono st st')
    (hp : SeedP st s) : SeedP st' s := by
  obtain ⟨⟨i, hfi, hnode⟩, hcons⟩ := hp
  exact ⟨⟨i, findIdx_stable _ _ _ _ hm.1 hfi, hm.2.1 i hnode⟩, hm.2.2.2.1 s hcons⟩

theorem mono_seedOne (acc : TState × List Nat) (info : SymbolCrossrefInfo) :
    Mono acc.1 (seedOne acc info).1 := by
  rw [seedOne]
  simp only
  refine ⟨?_, ?_, ?_, ?_, ?_⟩
  · cases add_symbol_symbolsOf acc.1.sym_node_set
      { symbol := info.symbol, crossref_info := info.crossref_info, badges := [] } with
    | inl he => exact ⟨[], by rw [he]; simp⟩
    | inr he => exact ⟨[info.symbol], by rw [he]⟩
  · exact fun n h => mem_ensure_node_mono _ _ _ h
  · intro e h
    rw [ensure_node_edges]
    exact h
  · exact fun s h => consideredInsert_mono _ _ _ h
  · rw [ensure_node_name]

theorem mono_seed_foldl (infos : List SymbolCrossrefInfo) :
    ∀ acc : TState × List Nat, Mono acc.1 (infos.foldl seedOne acc).1 := by
  induction infos with
  | nil => exact fun acc => mono_refl _
  | cons info rest ih =>
    intro acc
    rw [List.foldl_cons]
    exact mono_trans (mono_seedOne acc info) (ih (seedOne acc info))

theorem seedOne_establishes (acc : TState × List Nat) (info : SymbolCrossrefInfo) :
    SeedP (seedOne acc info).1 info.symbol := by
  rw [seedOne]
  simp only
  constructor
  · refine ⟨_, ?_, mem_ensure_node_self _ _⟩
    exact add_symbol_findIdx_self acc.1.sym_node_set
      { symbol := info.symbol, crossref_info := info.crossref_info, badges := [] }
  · exact consideredInsert_self _ _

theorem seed_establishes (infos : List SymbolCrossrefInfo) :
    ∀ (acc : TState × List Nat) (sc : SymbolCrossrefInfo), sc ∈ infos →
    SeedP (infos.foldl seedOne acc).1 sc.symbol := by
  induction infos with
  | nil =>
    intro acc sc h
    cases h
  | cons info rest ih =>
    intro acc sc h
    rw [List.foldl_cons]
    rcases List.mem_cons.mp h with rfl | hmem
    · exact seedP_mono (mono_seed_foldl rest (seedOne acc sc)) (seedOne_establishes acc sc)
    · exact ih (seedOne acc info) sc hmem

/-! ### Data errors -/

/-- An overrides entry without a `sym` string anywhere in the array makes the
loop fail with the data error naming the root symbol and "meta overrides". -/
theorem overridesLoop_error (maxd : Nat) (resolve : String → Json) (rootSym : String)
    (symId : Nat) (depth : Nat) (entries : List Json) : ∀ st : TState,
    (∃ e ∈ entries, (e.getKey "sym").asStr = none) →
    overridesLoop maxd resolve rootSym symId depth st entries =
      .error (.data rootSym "meta overrides") := by
  induction entries with
  | nil =>
    intro st h
    obtain ⟨e, he, _⟩ := h
    cases he
  | cons target rest ih =>
    intro st h
    cases hts : (target.getKey "sym").asStr with
    | none =>
      rw [overridesLoop, hts]
    | some target_sym =>
      rw [overridesLoop, hts]
      simp only
      apply ih
      obtain ⟨e, he, hbad⟩ := h
      rcases List.mem_cons.mp he with rfl | hmem
      · rw [hts] at hbad
        cases hbad
      · exact ⟨e, hmem, hbad⟩

/-- An overriddenBy entry that is not a string makes the loop fail with the
data error naming the root symbol and "meta overriddenBy". -/
theorem overriddenByLoop_error (maxd : Nat) (resolve : String → Json) (rootSym : String)
    (symId : Nat) (depth : Nat) (entries : List Json) : ∀ st : TState,
    (∃ e ∈ entries, e.asStr = none) →
    overriddenByLoop maxd resolve rootSym symId depth st entries =
      .error (.data rootSym "meta overriddenBy") := by
  induction entries with
  | nil =>
    intro st h
    obtain ⟨e, he, _⟩ := h
    cases he
  | cons target rest ih =>
    intro st h
    cases hts : target.asStr with
    | none =>
      rw [overriddenByLoop, hts]
    | some target_sym =>
      rw [overriddenByLoop, hts]
      simp only
      apply ih
      obtain ⟨e, he, hbad⟩ := h
      rcases List.mem_cons.mp he with rfl | hmem
      · rw [hts] at hbad
        cases hbad
      · exact ⟨e, hmem, hbad⟩

/-- A callees entry without a `sym` string makes the loop fail with the data
error naming the root symbol and the callees edge. -/
theorem calleesLoop_error (maxd : Nat) (resolve : String → Json) (rootSym : String)
    (symId : Nat) (depth : Nat) (entries : List Json) : ∀ st : TState,
    (∃ e ∈ entries, (e.getKey "sym").asStr = none) →
    calleesLoop maxd resolve rootSym symId depth st entries =
      .error (.data rootSym "edge callees") := by
  induction entries with
  | nil =>
    intro st h
    obtain ⟨e, he, _⟩ := h
    cases he
  | cons target rest ih =>
    intro st h
    cases hts : (target.getKey "sym").asStr with
    | none =>
      rw [calleesLoop, hts]
    | some target_sym =>
      rw [calleesLoop, hts]
      simp only
      apply ih
      obtain ⟨e, he, hbad⟩ := h
      rcases List.mem_cons.mp he with rfl | hmem
      · rw [hts] at hbad
        cases hbad
      · exact ⟨e, hmem, hbad⟩

/-- A uses path-group whose `lines` is missing or not an array makes the
loop fail with the data error naming the root symbol and the uses edge. -/
theorem usesGroupLoop_error (maxd : Nat) (resolve : String → Json) (rootSym : String)
    (symId : Nat) (depth : Nat) (groups : List Json) : ∀ (st : TState) (uc : List String),
    (∃ g ∈ groups, (g.getKey "lines").asArray = none) →
    usesGroupLoop maxd resolve rootSym symId depth st uc groups =
      .error (.data rootSym "edge uses") := by
  induction groups with
  | nil =>
    intro st uc h
    obtain ⟨g, hg, _⟩ := h
    cases hg
  | cons path_hits rest ih =>
    intro st uc h
    cases hl : (path_hits.getKey "lines").asArray with
    | none =>
      rw [usesGroupLoop, hl]
    | some hits =>
      rw [usesGroupLoop, hl]
      simp only
      apply ih
      obtain ⟨g, hg, hbad⟩ := h
      rcases List.mem_cons.mp hg with rfl | hmem
      · rw [hl] at hbad
        cases hbad
      · exact ⟨g, hmem, hbad⟩

/-- A driver-loop error aborts the whole call: `execute` returns it with no
collection. -/
theorem execute_error_of_loop (args : Args) (resolve : String → Json)
    (infos : List SymbolCrossrefInfo) (fuel : Nat) (er : TravError)
    (h : traverseLoop args resolve fuel (seedInit infos).1 = .error er) :
    execute args resolve (.symbolCrossrefInfoList infos) fuel = .error er := by
  rw [execute, h]

/-! ### The considered-gated edge discipline of the override stages -/

theorem callableOf_ensure (ns : SymbolGraphNodeSet) (resolve : String → Json) (s t : String) :
    callableOf resolve (ns.ensure_symbol resolve s).2.2 t = callableOf resolve ns t := by
  rw [callableOf, callableOf, infoOf_ensure]

/-- Any entry of the overrides array whose target is callable and not yet
considered ends up, by the end of the loop, found in the node set with an
edge target→self in the graph — whatever the configured edge kind (the
loop does not depend on it). -/
theorem overridesLoop_adds (maxd : Nat) (resolve : String → Json) (rootSym : String)
    (symId : Nat) (depth : Nat) (entries : List Json) : ∀ (st st' : TState) (t : String),
    overridesLoop maxd resolve rootSym symId depth st entries = .ok st' →
    (∃ e ∈ entries, (e.getKey "sym").asStr = some t) →
    callableOf resolve st.sym_node_set t = true →
    t ∉ st.considered →
    ∃ tid, st'.sym_node_set.findIdx t = some tid ∧ (tid, symId) ∈ st'.graph.edges := by
  induction entries with
  | nil =>
    intro st st' t h hex hc hnc
    obtain ⟨e, he, _⟩ := hex
    cases he
  | cons target rest ih =>
    intro st st' t h hex hc hnc
    cases hts : (target.getKey "sym").asStr with
    | none =>
      rw [overridesLoop, hts] at h
      cases h
    | some t0 =>
      rw [overridesLoop, hts] at h
      simp only at h
      have hsym0 : (st.sym_node_set.ensure_symbol resolve t0).2.1.symbol = t0 := by
        rw [ensure_info, infoOf_symbol]
      rw [hsym0] at h
      by_cases het : t = t0
      · subst het
        have hcall : (st.sym_node_set.ensure_symbol resolve t).2.1.is_callable = true := by
          rw [ensure_info]
          exact hc
        rw [hcall, if_pos rfl, consideredInsert_fresh _ _ hnc] at h
        simp only at h
        have hfi1 : ((st.sym_node_set.ensure_symbol resolve t).2.2).findIdx t =
            some ((st.sym_node_set.ensure_symbol resolve t).1) :=
          ensure_findIdx_self _ _ _
        by_cases hd : depth < maxd
        · rw [if_pos hd] at h
          obtain ⟨⟨hext, _, hedges, _, _⟩, _, _⟩ :=
            stageOK_overridesLoop maxd resolve rootSym symId depth rest _ _ h
          exact ⟨_, findIdx_stable _ _ _ _ hext hfi1,
            hedges _ (mem_add_edge_self _ _ _)⟩
        · rw [if_neg hd] at h
          obtain ⟨⟨hext, _, hedges, _, _⟩, _, _⟩ :=
            stageOK_overridesLoop maxd resolve rootSym symId depth rest _ _ h
          exact ⟨_, findIdx_stable _ _ _ _ hext hfi1,
            hedges _ (mem_add_edge_self _ _ _)⟩
      · have hexrest : ∃ e ∈ rest, (e.getKey "sym").asStr = some t := by
          obtain ⟨e, hmem, hsome⟩ := hex
          rcases List.mem_cons.mp hmem with rfl | hr
          · rw [hts] at hsome
            cases hsome
            exact absurd rfl het
          · exact ⟨e, hr, hsome⟩
        by_cases hc0 : (st.sym_node_set.ensure_symbol resolve t0).2.1.is_callable = true
        · rw [hc0, if_pos rfl] at h
          by_cases hm0 : t0 ∈ st.considered
          · rw [consideredInsert_stale _ _ hm0] at h
            simp only at h
            refine ih _ st' t h hexrest ?_ ?_
            · show callableOf resolve (st.sym_node_set.ensure_symbol resolve t0).2.2 t = true
              rw [callableOf_ensure]
              exact hc
            · exact hnc
          · rw [consideredInsert_fresh _ _ hm0] at h
            simp only at h
            by_cases hd : depth < maxd
            · rw [if_pos hd] at h
              refine ih _ st' t h hexrest ?_ ?_
              · show callableOf resolve (st.sym_node_set.ensure_symbol resolve t0).2.2 t = true
                rw [callableOf_ensure]
                exact hc
              · show t ∉ t0 :: st.considered
                intro hmm
                rcases List.mem_cons.mp hmm with rfl | hr
                · exact het rfl
                · exact hnc hr
            · rw [if_neg hd] at h
              refine ih _ st' t h hexrest ?_ ?_
              · show callableOf resolve (st.sym_node_set.ensure_symbol resolve t0).2.2 t = true
                rw [callableOf_ensure]
                exact hc
              · show t ∉ t0 :: st.considered
                intro hmm
                rcases List.mem_cons.mp hmm with rfl | hr
                · exact het rfl
                · exact hnc hr
        · rw [Bool.not_eq_true] at hc0
          rw [hc0, if_neg (by simp)] at h
          refine ih _ st' t h hexrest ?_ ?_
          · show callableOf resolve (st.sym_node_set.ensure_symbol resolve t0).2.2 t = true
            rw [callableOf_ensure]
            exact hc
          · exact hnc

/-- For a target already in the call-scoped `considered` set when the
overrides loop starts, the loop adds no edge target→self at all: the edge
is in the final graph only if it was already there. -/
theorem overridesLoop_blocked (maxd : Nat) (resolve : String → Json) (rootSym : String)
    (symId : Nat) (depth : Nat) (entries : List Json) :
    ∀ (st st' : TState) (t : String) (tid : Nat),
    overridesLoop maxd resolve rootSym symId depth st entries = .ok st' →
    t ∈ st.considered →
    st'.sym_node_set.findIdx t = some tid →
    ((tid, symId) ∈ st'.graph.edges ↔ (tid, symId) ∈ st.graph.edges) := by
  induction entries with
  | nil =>
    intro st st' t tid h hcons hfi
    cases h
    exact Iff.rfl
  | cons target rest ih =>
    intro st st' t tid h hcons hfi
    cases hts : (target.getKey "sym").asStr with
    | none =>
      rw [overridesLoop, hts] at h
      cases h
    | some t0 =>
      rw [overridesLoop, hts] at h
      simp only at h
      have hsym0 : (st.sym_node_set.ensure_symbol resolve t0).2.1.symbol = t0 := by
        rw [ensure_info, infoOf_symbol]
      rw [hsym0] at h
      by_cases hc0 : (st.sym_node_set.ensure_symbol resolve t0).2.1.is_callable = true
      · rw [hc0, if_pos rfl] at h
        by_cases hm0 : t0 ∈ st.considered
        · rw [consideredInsert_stale _ _ hm0] at h
          simp only at h
          rw [if_neg (by simp)] at h
          exact ih { st with sym_node_set := (st.sym_node_set.ensure_symbol resolve t0).2.2 }
            st' t tid h hcons hfi
        · rw [consideredInsert_fresh _ _ hm0] at h
          simp only at h
          rw [if_pos trivial] at h
          have hnet : t ≠ t0 := fun hh => hm0 (hh ▸ hcons)
          have hfi1 : ((st.sym_node_set.ensure_symbol resolve t0).2.2).findIdx t0 =
              some ((st.sym_node_set.ensure_symbol resolve t0).1) :=
            ensure_findIdx_self _ _ _
          have hmain : ∀ (B : TState),
              overridesLoop maxd resolve rootSym symId depth B rest = .ok st' →
              B.sym_node_set = (st.sym_node_set.ensure_symbol resolve t0).2.2 →
              B.graph = st.graph.add_edge (st.sym_node_set.ensure_symbol resolve t0).1 symId →
              t ∈ B.considered →
              ((tid, symId) ∈ st'.graph.edges ↔ (tid, symId) ∈ st.graph.edges) := by
            intro B hB hBns hBg hBc
            have hiff := ih B st' t tid hB hBc hfi
            obtain ⟨⟨hext, _, _, _, _⟩, _, _⟩ :=
              stageOK_overridesLoop maxd resolve rootSym symId depth rest _ _ hB
            have hfi0 : st'.sym_node_set.findIdx t0 =
                some ((st.sym_node_set.ensure_symbol resolve t0).1) := by
              refine findIdx_stable ((st.sym_node_set.ensure_symbol resolve t0).2.2)
                st'.sym_node_set t0 _ ?_ hfi1
              rw [hBns] at hext
              exact hext
            have hne : tid ≠ (st.sym_node_set.ensure_symbol resolve t0).1 := by
              intro hh
              exact hnet (findIdx_inj st'.sym_node_set t t0 tid hfi (hh ▸ hfi0))
            rw [hiff, hBg, mem_add_edge_iff]
            constructor
            · rintro (hin | hpair)
              · exact hin
              · exfalso
                apply hne
                exact congrArg Prod.fst hpair
            · exact fun hin => .inl hin
          by_cases hd : depth < maxd
          · rw [if_pos hd] at h
            exact hmain _ h rfl rfl (List.mem_cons_of_mem _ hcons)
          · rw [if_neg hd] at h
            exact hmain _ h rfl rfl (List.mem_cons_of_mem _ hcons)
      · rw [Bool.not_eq_true] at hc0
        rw [hc0, if_neg (by simp)] at h
        exact ih { st with sym_node_set := (st.sym_node_set.ensure_symbol resolve t0).2.2 }
          st' t tid h hcons hfi

/-- Any entry of the overriddenBy array whose target is callable and not yet
considered ends up, by the end of the loop, found in the node set with an
edge target→self in the graph — whatever the configured edge kind (the
loop does not depend on it). -/
theorem overriddenByLoop_adds (maxd : Nat) (resolve : String → Json) (rootSym : String)
    (symId : Nat) (depth : Nat) (entries : List Json) : ∀ (st st' : TState) (t : String),
    overriddenByLoop maxd resolve rootSym symId depth st entries = .ok st' →
    (∃ e ∈ entries, e.asStr = some t) →
    callableOf resolve st.sym_node_set t = true →
    t ∉ st.considered →
    ∃ tid, st'.sym_node_set.findIdx t = some tid ∧ (tid, symId) ∈ st'.graph.edges := by
  induction entries with
  | nil =>
    intro st st' t h hex hc hnc
    obtain ⟨e, he, _⟩ := hex
    cases he
  | cons target rest ih =>
    intro st st' t h hex hc hnc
    cases hts : target.asStr with
    | none =>
      rw [overriddenByLoop, hts] at h
      cases h
    | some t0 =>
      rw [overriddenByLoop, hts] at h
      simp only at h
      have hsym0 : (st.sym_node_set.ensure_symbol resolve t0).2.1.symbol = t0 := by
        rw [ensure_info, infoOf_symbol]
      rw [hsym0] at h
      by_cases het : t = t0
      · subst het
        have hcall : (st.sym_node_set.ensure_symbol resolve t).2.1.is_callable = true := by
          rw [ensure_info]
          exact hc
        rw [hcall, if_pos rfl, consideredInsert_fresh _ _ hnc] at h
        simp only at h
        have hfi1 : ((st.sym_node_set.ensure_symbol resolve t).2.2).findIdx t =
            some ((st.sym_node_set.ensure_symbol resolve t).1) :=
          ensure_findIdx_self _ _ _
        by_cases hd : depth < maxd
        · rw [if_pos hd] at h
          obtain ⟨⟨hext, _, hedges, _, _⟩, _, _⟩ :=
            stageOK_overriddenByLoop maxd resolve rootSym symId depth rest _ _ h
          exact ⟨_, findIdx_stable _ _ _ _ hext hfi1,
            hedges _ (mem_add_edge_self _ _ _)⟩
        · rw [if_neg hd] at h
          obtain ⟨⟨hext, _, hedges, _, _⟩, _, _⟩ :=
            stageOK_overriddenByLoop maxd resolve rootSym symId depth rest _ _ h
          exact ⟨_, findIdx_stable _ _ _ _ hext hfi1,
            hedges _ (mem_add_edge_self _ _ _)⟩
      · have hexrest : ∃ e ∈ rest, e.asStr = some t := by
          obtain ⟨e, hmem, hsome⟩ := hex
          rcases List.mem_cons.mp hmem with rfl | hr
          · rw [hts] at hsome
            cases hsome
            exact absurd rfl het
          · exact ⟨e, hr, hsome⟩
        by_cases hc0 : (st.sym_node_set.ensure_symbol resolve t0).2.1.is_callable = true
        · rw [hc0, if_pos rfl] at h
          by_cases hm0 : t0 ∈ st.considered
          · rw [consideredInsert_stale _ _ hm0] at h
            simp only at h
            refine ih _ st' t h hexrest ?_ ?_
            · show callableOf resolve (st.sym_node_set.ensure_symbol resolve t0).2.2 t = true
              rw [callableOf_ensure]
              exact hc
            · exact hnc
          · rw [consideredInsert_fresh _ _ hm0] at h
            simp only at h
            by_cases hd : depth < maxd
            · rw [if_pos hd] at h
              refine ih _ st' t h hexrest ?_ ?_
              · show callableOf resolve (st.sym_node_set.ensure_symbol resolve t0).2.2 t = true
                rw [callableOf_ensure]
                exact hc
              · show t ∉ t0 :: st.considered
                intro hmm
                rcases List.mem_cons.mp hmm with rfl | hr
                · exact het rfl
                · exact hnc hr
            · rw [if_neg hd] at h
              refine ih _ st' t h hexrest ?_ ?_
              · show callableOf resolve (st.sym_node_set.ensure_symbol resolve t0).2.2 t = true
                rw [callableOf_ensure]
                exact hc
              · show t ∉ t0 :: st.considered
                intro hmm
                rcases List.mem_cons.mp hmm with rfl | hr
                · exact het rfl
                · exact hnc hr
        · rw [Bool.not_eq_true] at hc0
          rw [hc0, if_neg (by simp)] at h
          refine ih _ st' t h hexrest ?_ ?_
          · show callableOf resolve (st.sym_node_set.ensure_symbol resolve t0).2.2 t = true
            rw [callableOf_ensure]
            exact hc
          · exact hnc

/-- For a target already in the call-scoped `considered` set when the
overriddenBy loop starts, the loop adds no edge target→self at all: the edge
is in the final graph only if it was already there. -/
theorem overriddenByLoop_blocked (maxd : Nat) (resolve : String → Json) (rootSym : String)
    (symId : Nat) (depth : Nat) (entries : List Json) :
    ∀ (st st' : TState) (t : String) (tid : Nat),
    overriddenByLoop maxd resolve rootSym symId depth st entries = .ok st' →
    t ∈ st.considered →
    st'.sym_node_set.findIdx t = some tid →
    ((tid, symId) ∈ st'.graph.edges ↔ (tid, symId) ∈ st.graph.edges) := by
  induction entries with
  | nil =>
    intro st st' t tid h hcons hfi
    cases h
    exact Iff.rfl
  | cons target rest ih =>
    intro st st' t tid h hcons hfi
    cases hts : target.asStr with
    | none =>
      rw [overriddenByLoop, hts] at h
      cases h
    | some t0 =>
      rw [overriddenByLoop, hts] at h
      simp only at h
      have hsym0 : (st.sym_node_set.ensure_symbol resolve t0).2.1.symbol = t0 := by
        rw [ensure_info, infoOf_symbol]
      rw [hsym0] at h
      by_cases hc0 : (st.sym_node_set.ensure_symbol resolve t0).2.1.is_callable = true
      · rw [hc0, if_pos rfl] at h
        by_cases hm0 : t0 ∈ st.considered
        · rw [consideredInsert_stale _ _ hm0] at h
          simp only at h
          rw [if_neg (by simp)] at h
          exact ih { st with sym_node_set := (st.sym_node_set.ensure_symbol resolve t0).2.2 }
            st' t tid h hcons hfi
        · rw [consideredInsert_fresh _ _ hm0] at h
          simp only at h
          rw [if_pos trivial] at h
          have hnet : t ≠ t0 := fun hh => hm0 (hh ▸ hcons)
          have hfi1 : ((st.sym_node_set.ensure_symbol resolve t0).2.2).findIdx t0 =
              some ((st.sym_node_set.ensure_symbol resolve t0).1) :=
            ensure_findIdx_self _ _ _
          have hmain : ∀ (B : TState),
              overriddenByLoop maxd resolve rootSym symId depth B rest = .ok st' →
              B.sym_node_set = (st.sym_node_set.ensure_symbol resolve t0).2.2 →
              B.graph = st.graph.add_edge (st.sym_node_set.ensure_symbol resolve t0).1 symId →
              t ∈ B.considered →
              ((tid, symId) ∈ st'.graph.edges ↔ (tid, symId) ∈ st.graph.edges) := by
            intro B hB hBns hBg hBc
            have hiff := ih B st' t tid hB hBc hfi
            obtain ⟨⟨hext, _, _, _, _⟩, _, _⟩ :=
              stageOK_overriddenByLoop maxd resolve rootSym symId depth rest _ _ hB
            have hfi0 : st'.sym_node_set.findIdx t0 =
                some ((st.sym_node_set.ensure_symbol resolve t0).1) := by
              refine findIdx_stable ((st.sym_node_set.ensure_symbol resolve t0).2.2)
                st'.sym_node_set t0 _ ?_ hfi1
              rw [hBns] at hext
              exact hext
            have hne : tid ≠ (st.sym_node_set.ensure_symbol resolve t0).1 := by
              intro hh
              exact hnet (findIdx_inj st'.sym_node_set t t0 tid hfi (hh ▸ hfi0))
            rw [hiff, hBg, mem_add_edge_iff]
            constructor
            · rintro (hin | hpair)
              · exact hin
              · exfalso
                apply hne
                exact congrArg Prod.fst hpair
            · exact fun hin => .inl hin
          by_cases hd : depth < maxd
          · rw [if_pos hd] at h
            exact hmain _ h rfl rfl (List.mem_cons_of_mem _ hcons)
          · rw [if_neg hd] at h
            exact hmain _ h rfl rfl (List.mem_cons_of_mem _ hcons)
      · rw [Bool.not_eq_true] at hc0
        rw [hc0, if_neg (by simp)] at h
        exact ih { st with sym_node_set := (st.sym_node_set.ensure_symbol resolve t0).2.2 }
          st' t tid h hcons hfi

/-! ### Soundness of the simple-path enumeration and of the reduction -/

theorem successors_sound (edges : List (Nat × Nat)) (cur nxt : Nat)
    (h : nxt ∈ successors edges cur) : (cur, nxt) ∈ edges := by
  rw [successors] at h
  obtain ⟨e, he, hsome⟩ := List.mem_filterMap.mp h
  by_cases hc : e.1 = cur
  · rw [if_pos hc] at hsome
    cases e with
    | mk a b =>
      simp only at hc
      obtain rfl : a = cur := hc
      obtain rfl : b = nxt := Option.some.inj hsome
      exact he
  · rw [if_neg hc] at hsome
    cases hsome

theorem simplePathsFrom_sound (edges : List (Nat × Nat)) :
    ∀ (fuel : Nat) (cur target : Nat) (visited : List Nat) (p : List Nat),
    p ∈ simplePathsFrom edges fuel cur target visited →
    cur ∈ visited →
    p.head? = some cur ∧ p.getLast? = some target ∧ edgeChainB edges p = true ∧
      listNodupB p = true ∧ ∀ x ∈ p, x = cur ∨ x ∉ visited := by
  intro fuel
  induction fuel with
  | zero =>
    intro cur target visited p hp _
    cases hp
  | succ fuel ih =>
    intro cur target visited p hp hcv
    rw [simplePathsFrom] at hp
    by_cases hct : cur = target
    · rw [if_pos hct] at hp
      rcases List.mem_singleton.mp hp with rfl
      subst hct
      refine ⟨rfl, rfl, rfl, ?_, ?_⟩
      · rw [listNodupB, listNodupB]
        simp
      · intro x hx
        rcases List.mem_singleton.mp hx with rfl
        exact .inl rfl
    · rw [if_neg hct] at hp
      obtain ⟨nxt, hnsucc, hpmem⟩ := List.mem_flatMap.mp hp
      by_cases hnv : nxt ∈ visited
      · rw [if_pos hnv] at hpmem
        cases hpmem
      · rw [if_neg hnv] at hpmem
        obtain ⟨q, hq, rfl⟩ := List.mem_map.mp hpmem
        obtain ⟨hq1, hq2, hq3, hq4, hq5⟩ :=
          ih nxt target (nxt :: visited) q hq (List.mem_cons_self _ _)
        cases q with
        | nil => cases hq1
        | cons b l =>
          have hb : b = nxt := by
            rw [List.head?_cons] at hq1
            cases hq1
            rfl
          subst hb
          have hcurq : cur ∉ b :: l := by
            intro hmm
            rcases hq5 cur hmm with rfl | hnot
            · exact hnv hcv
            · exact hnot (List.mem_cons_of_mem _ hcv)
          refine ⟨rfl, ?_, ?_, ?_, ?_⟩
          · rw [List.getLast?_cons_cons]
            exact hq2
          · rw [edgeChainB]
            have hedge : (cur, b) ∈ edges := successors_sound edges cur b hnsucc
            rw [decide_eq_true hedge, hq3]
            rfl
          · rw [listNodupB, decide_eq_true hcurq, hq4]
            rfl
          · intro x hx
            rcases List.mem_cons.mp hx with rfl | hxq
            · exact .inl rfl
            · rcases hq5 x hxq with rfl | hnot
              · exact .inr hnv
              · exact .inr (fun hmm => hnot (List.mem_cons_of_mem _ hmm))

/-- Every enumerated path is a simple path from `s` to `t` over the graph's
edges. -/
theorem all_simple_paths_sound (g : NamedSymbolGraph) (s t : Nat) (p : List Nat)
    (h : p ∈ g.all_simple_paths s t) : isSimplePathB g.edges p s t = true := by
  rw [NamedSymbolGraph.all_simple_paths] at h
  by_cases hst : s = t
  · rw [if_pos hst] at h
    cases h
  · rw [if_neg hst] at h
    obtain ⟨h1, h2, h3, h4, _⟩ :=
      simplePathsFrom_sound g.edges (g.nodes.length + 1) s t [s] p h
        (List.mem_singleton.mpr rfl)
    rw [isSimplePathB, h1, h2, h3, h4]
    simp

theorem add_symbol_infos (ns : SymbolGraphNodeSet) (info : DerivedSymbolInfo) :
    (ns.add_symbol info).2.symbol_crossref_infos = ns.symbol_crossref_infos ∨
      (ns.add_symbol info).2.symbol_crossref_infos = ns.symbol_crossref_infos ++ [info] := by
  rw [SymbolGraphNodeSet.add_symbol]
  cases ns.findIdx info.symbol with
  | some i => exact .inl rfl
  | none => exact .inr rfl

theorem ensurePathNode_prov (src : SymbolGraphNodeSet) (acc : PathsAcc) (oldId : Nat)
    (info : DerivedSymbolInfo)
    (h : info ∈ (ensurePathNode src acc oldId).paths_node_set.symbol_crossref_infos) :
    info ∈ acc.paths_node_set.symbol_crossref_infos ∨ src.get oldId = some info := by
  rw [ensurePathNode] at h
  by_cases hsup : oldId ∈ acc.suppression
  · rw [if_pos hsup] at h
    exact .inl h
  · rw [if_neg hsup] at h
    cases hget : src.get oldId with
    | none =>
      rw [hget] at h
      exact .inl h
    | some i =>
      rw [hget] at h
      simp only at h
      rcases add_symbol_infos acc.paths_node_set i with he | he
      · rw [he] at h
        exact .inl h
      · rw [he] at h
        rcases List.mem_append.mp h with hh | hh
        · exact .inl hh
        · have hii := List.mem_singleton.mp hh
          subst hii
          exact .inr rfl

theorem ensurePathNode_name (src : SymbolGraphNodeSet) (acc : PathsAcc) (oldId : Nat) :
    (ensurePathNode src acc oldId).paths_graph.name = acc.paths_graph.name := by
  rw [ensurePathNode]
  by_cases hsup : oldId ∈ acc.suppression
  · rw [if_pos hsup]
  · rw [if_neg hsup]
    cases hget : src.get oldId with
    | none => rfl
    | some i =>
      simp only
      rw [ensure_node_name]

theorem propagateNodes_prov (src : SymbolGraphNodeSet) (p : List Nat) :
    ∀ (acc : PathsAcc) (info : DerivedSymbolInfo),
    info ∈ (p.foldl (ensurePathNode src) acc).paths_node_set.symbol_crossref_infos →
    info ∈ acc.paths_node_set.symbol_crossref_infos ∨
      ∃ id ∈ p, src.get id = some info := by
  induction p with
  | nil => exact fun acc info h => .inl h
  | cons a tail ih =>
    intro acc info h
    rw [List.foldl_cons] at h
    rcases ih (ensurePathNode src acc a) info h with hh | ⟨id, hid, hget⟩
    · rcases ensurePathNode_prov src acc a info hh with hh2 | hh2
      · exact .inl hh2
      · exact .inr ⟨a, List.mem_cons_self _ _, hh2⟩
    · exact .inr ⟨id, List.mem_cons_of_mem _ hid, hget⟩

theorem propagateNodes_name (src : SymbolGraphNodeSet) (p : List Nat) :
    ∀ acc : PathsAcc,
    (p.foldl (ensurePathNode src) acc).paths_graph.name = acc.paths_graph.name := by
  induction p with
  | nil => exact fun acc => rfl
  | cons a tail ih =>
    intro acc
    rw [List.foldl_cons, ih, ensurePathNode_name]

theorem propagateEdges_pns (src : SymbolGraphNodeSet) :
    ∀ (l : List Nat) (acc : PathsAcc),
    (propagateEdges src acc l).paths_node_set = acc.paths_node_set := by
  intro l
  induction l with
  | nil => exact fun acc => rfl
  | cons a tail ih =>
    intro acc
    cases tail with
    | nil => rfl
    | cons b rest =>
      rw [propagateEdges, ih]
      cases newIdOf src acc.paths_node_set a <;>
        cases newIdOf src acc.paths_node_set b <;> rfl

theorem propagateEdges_name (src : SymbolGraphNodeSet) :
    ∀ (l : List Nat) (acc : PathsAcc),
    (propagateEdges src acc l).paths_graph.name = acc.paths_graph.name := by
  intro l
  induction l with
  | nil => exact fun acc => rfl
  | cons a tail ih =>
    intro acc
    cases tail with
    | nil => rfl
    | cons b rest =>
      rw [propagateEdges, ih]
      cases newIdOf src acc.paths_node_set a <;>
        cases newIdOf src acc.paths_node_set b
      · rfl
      · rfl
      · rfl
      · simp only
        rw [add_edge_name]

theorem propagateOnePath_prov (src : SymbolGraphNodeSet) (acc : PathsAcc) (p : List Nat)
    (info : DerivedSymbolInfo)
    (h : info ∈ (propagateOnePath src acc p).paths_node_set.symbol_crossref_infos) :
    info ∈ acc.paths_node_set.symbol_crossref_infos ∨
      ∃ id ∈ p, src.get id = some info := by
  rw [propagateOnePath, propagateEdges_pns] at h
  exact propagateNodes_prov src p acc info h

theorem propagateOnePath_name (src : SymbolGraphNodeSet) (acc : PathsAcc) (p : List Nat) :
    (propagateOnePath src acc p).paths_graph.name = acc.paths_graph.name := by
  rw [propagateOnePath, propagateEdges_name, propagateNodes_name]

theorem propagate_paths_prov (src : SymbolGraphNodeSet) (paths : List (List Nat)) :
    ∀ (acc : PathsAcc) (info : DerivedSymbolInfo),
    info ∈ (src.propagate_paths paths acc).paths_node_set.symbol_crossref_infos →
    info ∈ acc.paths_node_set.symbol_crossref_infos ∨
      ∃ p ∈ paths, ∃ id ∈ p, src.get id = some info := by
  induction paths with
  | nil => exact fun acc info h => .inl h
  | cons p tail ih =>
    intro acc info h
    have h2 : info ∈
        (tail.foldl (propagateOnePath src) (propagateOnePath src acc p)).paths_node_set.symbol_crossref_infos := h
    rcases ih (propagateOnePath src acc p) info h2 with hh | ⟨q, hq, hid⟩
    · rcases propagateOnePath_prov src acc p info hh with hh2 | ⟨id, hid, hget⟩
      · exact .inl hh2
      · exact .inr ⟨p, List.mem_cons_self _ _, id, hid, hget⟩
    · exact .inr ⟨q, List.mem_cons_of_mem _ hq, hid⟩

theorem propagate_paths_name (src : SymbolGraphNodeSet) (paths : List (List Nat)) :
    ∀ acc : PathsAcc,
    (src.propagate_paths paths acc).paths_graph.name = acc.paths_graph.name := by
  induction paths with
  | nil => exact fun acc => rfl
  | cons p tail ih =>
    intro acc
    exact (ih (propagateOnePath src acc p)).trans (propagateOnePath_name src acc p)

theorem propagatePair_prov (st : TState) (acc : PathsAcc) (pr : Nat × Nat)
    (info : DerivedSymbolInfo)
    (h : info ∈ (propagatePair st acc pr).paths_node_set.symbol_crossref_infos) :
    info ∈ acc.paths_node_set.symbol_crossref_infos ∨
      ∃ p, (p ∈ st.graph.all_simple_paths pr.1 pr.2 ∨
        p ∈ st.graph.all_simple_paths pr.2 pr.1) ∧
        ∃ id ∈ p, st.sym_node_set.get id = some info := by
  rw [propagatePair] at h
  rcases propagate_paths_prov st.sym_node_set _ _ info h with hh | ⟨p, hp, hid⟩
  · rcases propagate_paths_prov st.sym_node_set _ _ info hh with hh2 | ⟨p, hp, hid⟩
    · exact .inl hh2
    · exact .inr ⟨p, .inl hp, hid⟩
  · exact .inr ⟨p, .inr hp, hid⟩

theorem propagatePair_name (st : TState) (acc : PathsAcc) (pr : Nat × Nat) :
    (propagatePair st acc pr).paths_graph.name = acc.paths_graph.name := by
  rw [propagatePair]
  rw [propagate_paths_name, propagate_paths_name]

theorem pairsFoldl_prov (st : TState) (pairs : List (Nat × Nat)) :
    ∀ (acc : PathsAcc) (info : DerivedSymbolInfo),
    info ∈ (pairs.foldl (propagatePair st) acc).paths_node_set.symbol_crossref_infos →
    info ∈ acc.paths_node_set.symbol_crossref_infos ∨
      ∃ pr ∈ pairs, ∃ p, (p ∈ st.graph.all_simple_paths pr.1 pr.2 ∨
        p ∈ st.graph.all_simple_paths pr.2 pr.1) ∧
        ∃ id ∈ p, st.sym_node_set.get id = some info := by
  induction pairs with
  | nil => exact fun acc info h => .inl h
  | cons pr tail ih =>
    intro acc info h
    rw [List.foldl_cons] at h
    rcases ih (propagatePair st acc pr) info h with hh | ⟨pr2, hpr2, hrest⟩
    · rcases propagatePair_prov st acc pr info hh with hh2 | ⟨p, hp, hid⟩
      · exact .inl hh2
      · exact .inr ⟨pr, List.mem_cons_self _ _, p, hp, hid⟩
    · exact .inr ⟨pr2, List.mem_cons_of_mem _ hpr2, hrest⟩

theorem pairsFoldl_name (st : TState) (pairs : List (Nat × Nat)) :
    ∀ acc : PathsAcc,
    (pairs.foldl (propagatePair st) acc).paths_graph.name = acc.paths_graph.name := by
  induction pairs with
  | nil => exact fun acc => rfl
  | cons pr tail ih =>
    intro acc
    rw [List.foldl_cons, ih, propagatePair_name]

/-! ### The claims -/

/-- C1, amended: the non-reduced node count can exceed the effective node
limit (nodes ensured while one symbol is expanded are kept, see the
counterexample), but the limit check at the top of each iteration is
enforced as claimed: whenever it trips, the loop emits exactly one
`NodeLimit` overload record carrying the just-dequeued symbol and the
remaining worklist size, discards the remaining worklist and stops; and a
whole run never records more than one `NodeLimit` overload, the worklist
being discarded when it does. -/
theorem claim_C1_node_limit :
    (∀ (args : Args) (resolve : String → Json) (fuel : Nat) (st : TState) (sym : String)
        (depth : Nat) (rest : List (String × Nat)),
      st.to_traverse = (sym, depth) :: rest →
      effectiveNodeLimit args ≤ st.sym_node_set.symbol_crossref_infos.length →
      traverseLoop args resolve (fuel + 1) st = .ok (some
        { st with
          to_traverse := [],
          overloads_hit := st.overloads_hit ++
            [nodeLimitOverload sym rest.length (effectiveNodeLimit args)] })) ∧
    (∀ (args : Args) (resolve : String → Json) (fuel : Nat) (st st' : TState),
      traverseLoop args resolve fuel st = .ok (some st') →
      nlCount st'.overloads_hit ≤ nlCount st.overloads_hit + 1 ∧
        (nlCount st.overloads_hit < nlCount st'.overloads_hit → st'.to_traverse = [])) :=
  ⟨fun args resolve fuel st sym depth rest hq hlim =>
      traverseLoop_trip args resolve fuel st sym depth rest hq hlim,
    fun args resolve fuel st st' h => traverseLoop_nlCount args resolve fuel st st' h⟩

/-- C1 counterexample: with `node_limit = 2` (paths-between off, so that is
the effective limit) and one seed whose record has two callable callees, the
run succeeds with three nodes in the output node set — the claimed bound
"never exceeds the effective node limit" is violated — while, as the rest of
the claim says, exactly one `NodeLimit` overload was recorded. -/
theorem claim_C1_counterexample :
    outNodeCount c1Out = some 3 ∧ effectiveNodeLimit c1Args = 2 ∧
      outOverloads c1Out = some [nodeLimitOverload "C" 1 2] :=
  ⟨rfl, rfl, rfl⟩

/-- C1 witness: the trip behaviour at a concrete one-entry worklist whose
node set already fills a limit of 1. -/
theorem claim_C1_witness :
    traverseLoop c1wArgs (fun _ => Json.null) 1 c1wSt = .ok (some c1wStopped) :=
  claim_C1_node_limit.1 c1wArgs (fun _ => Json.null) 0 c1wSt "A" 0 [] rfl (by decide)

/-- C2: in the uses stage, a symbol whose uses entry is an array with at
least `skip_uses_at_path_count` path-groups contributes nothing to the
graph, node set or worklist, and yields exactly one `UsesPaths` overload
record naming it, with the true group count as existing-count and
`skip_uses_at_path_count` as local limit. -/
theorem claim_C2_uses_path_skip (args : Args) (resolve : String → Json)
    (rootSym : String) (symId : Nat) (depth : Nat) (st : TState)
    (edgesJson : Json) (groups : List Json)
    (hedge : args.edge = "uses")
    (harr : edgesJson.asArray = some groups)
    (hskip : args.skip_uses_at_path_count ≤ groups.length) :
    explicitStage args resolve rootSym symId depth st edgesJson =
      .ok { st with
        overloads_hit := st.overloads_hit ++
          [{ kind := .usesPaths, sym := some rootSym, exist := groups.length,
             included := 0, local_limit := args.skip_uses_at_path_count,
             global_limit := 0 }] } := by
  rw [explicitStage, harr]
  simp only
  rw [hedge]
  rw [if_neg (by decide), if_pos (by decide), if_pos hskip]

/-- C2 witness: two empty path-groups against a skip limit of 2. -/
theorem claim_C2_witness :
    explicitStage { Args.defaults with edge := "uses", skip_uses_at_path_count := 2 }
      (fun _ => Json.null) "A" 0 0 TState.initial
      (Json.arr [Json.obj [], Json.obj []]) =
    .ok { TState.initial with
      overloads_hit := TState.initial.overloads_hit ++
        [{ kind := .usesPaths, sym := some "A", exist := 2, included := 0,
           local_limit := 2, global_limit := 0 }] } :=
  claim_C2_uses_path_skip _ (fun _ => Json.null) "A" 0 0 TState.initial
    (Json.arr [Json.obj [], Json.obj []]) [Json.obj [], Json.obj []]
    rfl rfl (by decide)

/-- C3: no worklist entry is ever pushed with a depth above `max_depth` —
every entry of the worklist after a symbol is processed is either an old
entry or was pushed at `depth + 1` under the guard `depth < max_depth`; a
symbol processed exactly at the depth ceiling pushes nothing; and in a
concrete ceiling run (`max_depth = 1`, chain A → B → C → D) the symbol C
discovered at the ceiling appears as a node and as an edge target while D,
reachable only by expanding C, does not appear. -/
theorem claim_C3_depth_guard :
    (∀ (args : Args) (resolve : String → Json) (st : TState) (sym : String)
        (depth : Nat) (st' : TState),
      processSymbol args resolve st sym depth = .ok st' →
      ∀ e ∈ st'.to_traverse, e ∈ st.to_traverse ∨
        (e.2 = depth + 1 ∧ depth < args.max_depth)) ∧
    (∀ (args : Args) (resolve : String → Json) (st : TState) (sym : String) (st' : TState),
      processSymbol args resolve st sym args.max_depth = .ok st' →
      st'.to_traverse = st.to_traverse) ∧
    (outNodeSymbols c3Out = some ["A", "B", "C"] ∧
      outEdges c3Out = some [(0, 1), (1, 2)]) := by
  refine ⟨?_, ?_, rfl, rfl⟩
  · intro args resolve st sym depth st' h e he
    obtain ⟨new, htt, hdep, hempty⟩ := (stageOK_processSymbol _ _ _ _ _ _ h).2.2
    rw [htt] at he
    rcases List.mem_append.mp he with hnew | hold
    · by_cases hlt : depth < args.max_depth
      · exact .inr ⟨hdep e hnew, hlt⟩
      · rw [hempty (Nat.le_of_not_lt hlt)] at hnew
        cases hnew
    · exact .inl hold
  · intro args resolve st sym st' h
    obtain ⟨new, htt, hdep, hempty⟩ := (stageOK_processSymbol _ _ _ _ _ _ h).2.2
    rw [htt, hempty (Nat.le_refl _)]
    rfl

/-- C3 witness: processing a symbol at the depth ceiling (`max_depth = 0`
here, seed depth 0) leaves the worklist untouched. -/
theorem claim_C3_witness :
    processSymbol { Args.defaults with max_depth := 0 } (fun _ => Json.null)
      TState.initial "A" 0 = .ok TState.initial →
    (TState.initial : TState).to_traverse = (TState.initial : TState).to_traverse :=
  fun h => claim_C3_depth_guard.2.1 { Args.defaults with max_depth := 0 }
    (fun _ => Json.null) TState.initial "A" TState.initial h

/-- C7, amended: a present-but-malformed edge, override or overriddenBy
entry (one lacking its required `sym` string) is reported as a data error
carrying the offending root symbol and the field or edge name, and a loop
error aborts the call with no partial graph; but a present-but-malformed
record field outside those entry lists (for example `meta.labels` not being
a string array) aborts through a `from_value(..).unwrap()` panic instead of
a reported data error — see the counterexample. -/
theorem claim_C7_data_errors :
    (∀ (maxd : Nat) (resolve : String → Json) (rootSym : String) (symId depth : Nat)
        (entries : List Json) (st : TState),
      (∃ e ∈ entries, (e.getKey "sym").asStr = none) →
      overridesLoop maxd resolve rootSym symId depth st entries =
        .error (.data rootSym "meta overrides")) ∧
    (∀ (maxd : Nat) (resolve : String → Json) (rootSym : String) (symId depth : Nat)
        (entries : List Json) (st : TState),
      (∃ e ∈ entries, e.asStr = none) →
      overriddenByLoop maxd resolve rootSym symId depth st entries =
        .error (.data rootSym "meta overriddenBy")) ∧
    (∀ (maxd : Nat) (resolve : String → Json) (rootSym : String) (symId depth : Nat)
        (entries : List Json) (st : TState),
      (∃ e ∈ entries, (e.getKey "sym").asStr = none) →
      calleesLoop maxd resolve rootSym symId depth st entries =
        .error (.data rootSym "edge callees")) ∧
    (∀ (maxd : Nat) (resolve : String → Json) (rootSym : String) (symId depth : Nat)
        (groups : List Json) (st : TState) (uc : List String),
      (∃ g ∈ groups, (g.getKey "lines").asArray = none) →
      usesGroupLoop maxd resolve rootSym symId depth st uc groups =
        .error (.data rootSym "edge uses")) ∧
    (∀ (args : Args) (resolve : String → Json) (infos : List SymbolCrossrefInfo)
        (fuel : Nat) (er : TravError),
      traverseLoop args resolve fuel (seedInit infos).1 = .error er →
      execute args resolve (.symbolCrossrefInfoList infos) fuel = .error er) :=
  ⟨fun maxd resolve rootSym symId depth entries st h =>
      overridesLoop_error maxd resolve rootSym symId depth entries st h,
    fun maxd resolve rootSym symId depth entries st h =>
      overriddenByLoop_error maxd resolve rootSym symId depth entries st h,
    fun maxd resolve rootSym symId depth entries st h =>
      calleesLoop_error maxd resolve rootSym symId depth entries st h,
    fun maxd resolve rootSym symId depth groups st uc h =>
      usesGroupLoop_error maxd resolve rootSym symId depth groups st uc h,
    fun args resolve infos fuel er h =>
      execute_error_of_loop args resolve infos fuel er h⟩

/-- C7 counterexample: with edge kind "class" and a seed whose `meta.labels`
is a number, the call aborts through the modelled panic, not through a
reported data error carrying symbol and field name. -/
theorem claim_C7_counterexample :
    c7Out = .error .parseFail ∧ isDataError c7Out = false :=
  ⟨rfl, rfl⟩

/-- C7 witness: one overrides entry without a `sym` string produces the data
error naming the root symbol and "meta overrides". -/
theorem claim_C7_witness :
    overridesLoop 8 (fun _ => Json.null) "R" 0 0 TState.initial [Json.obj []] =
      .error (.data "R" "meta overrides") :=
  claim_C7_data_errors.1 8 (fun _ => Json.null) "R" 0 0 [Json.obj []] TState.initial
    ⟨Json.obj [], List.mem_singleton.mpr rfl, rfl⟩

/-- C9: with paths-between enabled the output collection is built by
`buildPathsBetween` over the completed graph and the seeded root list, its
single graph is named "paths", and every record of the reduced node set
lies on at least one simple path between some root pair of the unreduced
graph (in one of the two directions enumerated per unordered pair). -/
theorem claim_C9_paths_between :
    (∀ (args : Args) (resolve : String → Json) (infos : List SymbolCrossrefInfo)
        (fuel : Nat) (coll : SymbolGraphCollection),
      args.paths_between = true →
      execute args resolve (.symbolCrossrefInfoList infos) fuel =
        .ok (some (.symbolGraphCollection coll)) →
      ∃ st, traverseLoop args resolve fuel (seedInit infos).1 = .ok (some st) ∧
        coll = buildPathsBetween st (seedInit infos).2) ∧
    (∀ (st : TState) (roots : List Nat),
      ∃ g, (buildPathsBetween st roots).graphs = [g] ∧ g.name = "paths") ∧
    (∀ (st : TState) (roots : List Nat) (info : DerivedSymbolInfo),
      info ∈ (buildPathsBetween st roots).node_set.symbol_crossref_infos →
      ∃ a b p, (a, b) ∈ tupleCombinations roots ∧
        ((p ∈ st.graph.all_simple_paths a b ∧
            isSimplePathB st.graph.edges p a b = true) ∨
          (p ∈ st.graph.all_simple_paths b a ∧
            isSimplePathB st.graph.edges p b a = true)) ∧
        ∃ oldId ∈ p, st.sym_node_set.get oldId = some info) := by
  refine ⟨?_, ?_, ?_⟩
  · intro args resolve infos fuel coll hpb hex
    rw [execute] at hex
    cases hloop : traverseLoop args resolve fuel (seedInit infos).1 with
    | error er =>
      rw [hloop] at hex
      cases hex
    | ok r =>
      rw [hloop] at hex
      cases r with
      | none =>
        simp only at hex
        cases hex
      | some st =>
        simp only [hpb] at hex
        rw [if_pos trivial] at hex
        cases hex
        exact ⟨st, rfl, rfl⟩
  · intro st roots
    refine ⟨_, rfl, ?_⟩
    exact (pairsFoldl_name st (tupleCombinations roots) _).trans rfl
  · intro st roots info h
    have h2 : info ∈ ((tupleCombinations roots).foldl (propagatePair st)
        { paths_graph := NamedSymbolGraph.new "paths",
          paths_node_set := SymbolGraphNodeSet.new,
          suppression := [] }).paths_node_set.symbol_crossref_infos := h
    rcases pairsFoldl_prov st (tupleCombinations roots) _ info h2 with hempty | hfound
    · cases hempty
    · obtain ⟨pr, hpr, p, hp, id, hid, hget⟩ := hfound
      rcases hp with hp | hp
      · exact ⟨pr.1, pr.2, p, hpr, .inl ⟨hp, all_simple_paths_sound _ _ _ _ hp⟩,
          id, hid, hget⟩
      · exact ⟨pr.1, pr.2, p, hpr, .inr ⟨hp, all_simple_paths_sound _ _ _ _ hp⟩,
          id, hid, hget⟩

/-- C9 witness: over a completed two-root graph A → B, the record of "A" in
the reduced node set lies on the simple path [0, 1] between the roots. -/
theorem claim_C9_witness :
    ∃ a b p, (a, b) ∈ tupleCombinations c9wRoots ∧
      ((p ∈ c9wSt.graph.all_simple_paths a b ∧
          isSimplePathB c9wSt.graph.edges p a b = true) ∨
        (p ∈ c9wSt.graph.all_simple_paths b a ∧
          isSimplePathB c9wSt.graph.edges p b a = true)) ∧
      ∃ oldId ∈ p, c9wSt.sym_node_set.get oldId = some c9wInfoA :=
  claim_C9_paths_between.2.2 c9wSt c9wRoots c9wInfoA (by
    rw [show (buildPathsBetween c9wSt c9wRoots).node_set.symbol_crossref_infos =
      [c9wInfoA, c9wInfoB] from rfl]
    exact List.mem_cons_self _ _)

/-- C10: in the uses stage, a hit whose `contextsym` is missing or empty is
skipped silently — processing the hit list with it is the same as without
it, so no edge, no enqueue and no error — whereas a path-group whose
`lines` is missing or not an array is a fatal data error naming the root
symbol and the uses edge. -/
theorem claim_C10_uses_hits :
    (∀ (maxd : Nat) (resolve : String → Json) (symId depth : Nat) (st : TState)
        (uc : List String) (source : Json) (rest : List Json),
      ((source.getKey "contextsym").asStr = none ∨
        (source.getKey "contextsym").asStr = some "") →
      usesHitLoop maxd resolve symId depth st uc (source :: rest) =
        usesHitLoop maxd resolve symId depth st uc rest) ∧
    (∀ (maxd : Nat) (resolve : String → Json) (rootSym : String) (symId depth : Nat)
        (groups : List Json) (st : TState) (uc : List String),
      (∃ g ∈ groups, (g.getKey "lines").asArray = none) →
      usesGroupLoop maxd resolve rootSym symId depth st uc groups =
        .error (.data rootSym "edge uses")) := by
  constructor
  · intro maxd resolve symId depth st uc source rest h
    have hgd : ((source.getKey "contextsym").asStr).getD "" = "" := by
      rcases h with h | h <;> rw [h] <;> rfl
    rw [usesHitLoop]
    simp only [hgd]
    rw [if_pos (by decide)]
  · intro maxd resolve rootSym symId depth groups st uc h
    exact usesGroupLoop_error maxd resolve rootSym symId depth groups st uc h

/-- C4: the overrides stage runs for every configured edge kind — neither
`overridesStage` nor its loop takes the edge kind at all, and any entry with
a callable, not-yet-considered target ends with an edge target→self in the
graph (shown concretely under edge kind "uses" as well); the overriddenBy
stage is the identity unless the configured edge kind is "inheritance", in
which case it walks the array with the same per-entry rule. -/
theorem claim_C4_overrides_edge_kinds :
    (∀ (maxd : Nat) (resolve : String → Json) (rootSym : String) (symId depth : Nat)
        (entries : List Json) (st st' : TState) (t : String),
      overridesLoop maxd resolve rootSym symId depth st entries = .ok st' →
      (∃ e ∈ entries, (e.getKey "sym").asStr = some t) →
      callableOf resolve st.sym_node_set t = true →
      t ∉ st.considered →
      ∃ tid, st'.sym_node_set.findIdx t = some tid ∧ (tid, symId) ∈ st'.graph.edges) ∧
    (∀ (args : Args) (resolve : String → Json) (rootSym : String) (symId depth : Nat)
        (st : TState) (obJson : Json),
      args.edge ≠ "inheritance" →
      overriddenByStage args resolve rootSym symId depth st obJson = .ok st) ∧
    (∀ (args : Args) (resolve : String → Json) (rootSym : String) (symId depth : Nat)
        (st : TState) (obJson : Json) (entries : List Json),
      args.edge = "inheritance" → obJson.asArray = some entries →
      overriddenByStage args resolve rootSym symId depth st obJson =
        overriddenByLoop args.max_depth resolve rootSym symId depth st entries) ∧
    (∀ (maxd : Nat) (resolve : String → Json) (rootSym : String) (symId depth : Nat)
        (entries : List Json) (st st' : TState) (t : String),
      overriddenByLoop maxd resolve rootSym symId depth st entries = .ok st' →
      (∃ e ∈ entries, e.asStr = some t) →
      callableOf resolve st.sym_node_set t = true →
      t ∉ st.considered →
      ∃ tid, st'.sym_node_set.findIdx t = some tid ∧ (tid, symId) ∈ st'.graph.edges) ∧
    (outEdges c4Out = some [(1, 0)] ∧ outNodeSymbols c4Out = some ["A", "B"]) := by
  refine ⟨?_, ?_, ?_, ?_, rfl, rfl⟩
  · intro maxd resolve rootSym symId depth entries st st' t h hex hc hnc
    exact overridesLoop_adds maxd resolve rootSym symId depth entries st st' t h hex hc hnc
  · intro args resolve rootSym symId depth st obJson hne
    rw [overriddenByStage, if_neg (fun hh => hne (by rwa [beq_iff_eq] at hh))]
  · intro args resolve rootSym symId depth st obJson entries he harr
    rw [overriddenByStage, he, if_pos (by rfl), harr]
  · intro maxd resolve rootSym symId depth entries st st' t h hex hc hnc
    exact overriddenByLoop_adds maxd resolve rootSym symId depth entries st st' t h hex hc hnc

/-- C4 witness: a callable override target "B" ends up with edge B→self
after the loop. -/
theorem claim_C4_witness :
    ∃ tid, c4wSt.sym_node_set.findIdx "B" = some tid ∧ (tid, 0) ∈ c4wSt.graph.edges :=
  claim_C4_overrides_edge_kinds.1 8 (fun _ => callableRec) "A" 0 0 c4wEntries
    TState.initial c4wSt "B" rfl
    ⟨Json.obj [("sym", Json.str "B")], List.mem_singleton.mpr rfl, rfl⟩
    rfl (by simp [TState.initial])

/-- C5: in the overrides and overriddenBy stages an entry whose callable
target is already in the call-scoped `considered` set adds no edge at all
(the edge target→self is in the final graph only if it was already there),
the edge being added only when the `considered` insertion succeeds; and at
or above the depth ceiling these stages enqueue nothing. -/
theorem claim_C5_considered_blocks_edges :
    (∀ (maxd : Nat) (resolve : String → Json) (rootSym : String) (symId depth : Nat)
        (entries : List Json) (st st' : TState) (t : String) (tid : Nat),
      overridesLoop maxd resolve rootSym symId depth st entries = .ok st' →
      t ∈ st.considered →
      st'.sym_node_set.findIdx t = some tid →
      ((tid, symId) ∈ st'.graph.edges ↔ (tid, symId) ∈ st.graph.edges)) ∧
    (∀ (maxd : Nat) (resolve : String → Json) (rootSym : String) (symId depth : Nat)
        (entries : List Json) (st st' : TState) (t : String) (tid : Nat),
      overriddenByLoop maxd resolve rootSym symId depth st entries = .ok st' →
      t ∈ st.considered →
      st'.sym_node_set.findIdx t = some tid →
      ((tid, symId) ∈ st'.graph.edges ↔ (tid, symId) ∈ st.graph.edges)) ∧
    (∀ (maxd : Nat) (resolve : String → Json) (rootSym : String) (symId depth : Nat)
        (entries : List Json) (st st' : TState),
      maxd ≤ depth →
      overridesLoop maxd resolve rootSym symId depth st entries = .ok st' →
      st'.to_traverse = st.to_traverse) ∧
    (∀ (maxd : Nat) (resolve : String → Json) (rootSym : String) (symId depth : Nat)
        (entries : List Json) (st st' : TState),
      maxd ≤ depth →
      overriddenByLoop maxd resolve rootSym symId depth st entries = .ok st' →
      st'.to_traverse = st.to_traverse) := by
  refine ⟨?_, ?_, ?_, ?_⟩
  · intro maxd resolve rootSym symId depth entries st st' t tid h hcons hfi
    exact overridesLoop_blocked maxd resolve rootSym symId depth entries st st' t tid
      h hcons hfi
  · intro maxd resolve rootSym symId depth entries st st' t tid h hcons hfi
    exact overriddenByLoop_blocked maxd resolve rootSym symId depth entries st st' t tid
      h hcons hfi
  · intro maxd resolve rootSym symId depth entries st st' hle h
    obtain ⟨_, _, ⟨new, htt, _, hempty⟩⟩ :=
      stageOK_overridesLoop maxd resolve rootSym symId depth entries st st' h
    rw [htt, hempty hle]
    rfl
  · intro maxd resolve rootSym symId depth entries st st' hle h
    obtain ⟨_, _, ⟨new, htt, _, hempty⟩⟩ :=
      stageOK_overriddenByLoop maxd resolve rootSym symId depth entries st st' h
    rw [htt, hempty hle]
    rfl

/-- C5 witness: with "B" already considered, the loop adds no B→self edge. -/
theorem claim_C5_witness :
    (0, 0) ∈ c5wSt.graph.edges ↔ (0, 0) ∈ c5wSt0.graph.edges :=
  claim_C5_considered_blocks_edges.1 8 (fun _ => callableRec) "A" 0 0 c4wEntries
    c5wSt0 c5wSt "B" 0 rfl (by simp [c5wSt0, TState.initial]) rfl

/-- C6: with `meta.slotOwner` present, the slot kinds EnablingPref,
EnablingFunc, Const and Send are never traversed — the stage leaves the
state untouched and does not abandon the symbol; a Recv slot abandons the
symbol unconditionally, whether or not a paired send slot exists; and when
the owner has a paired send slot (and the usual depth/considered guards
pass) an edge send→self is drawn and the send symbol is enqueued before the
abandonment. -/
theorem claim_C6_slot_owner :
    (∀ (args : Args) (resolve : String → Json) (st : TState) (symId depth : Nat)
        (j : Json) (so : StructuredBindingSlotInfo),
      parseBindingSlot j = some so →
      (so.slot_kind = .enablingPref ∨ so.slot_kind = .enablingFunc ∨
        so.slot_kind = .const ∨ so.slot_kind = .send) →
      slotOwnerStage args resolve st symId depth (some j) = .ok (st, true)) ∧
    (∀ (args : Args) (resolve : String → Json) (st : TState) (symId depth : Nat)
        (j : Json) (so : StructuredBindingSlotInfo),
      parseBindingSlot j = some so → so.slot_kind = .recv →
      ∃ st', slotOwnerStage args resolve st symId depth (some j) = .ok (st', false)) ∧
    (∀ (args : Args) (resolve : String → Json) (st : TState) (symId depth : Nat)
        (j : Json) (so : StructuredBindingSlotInfo) (sendSym : String),
      parseBindingSlot j = some so → so.slot_kind = .recv →
      (st.sym_node_set.ensure_symbol resolve so.sym).2.1.get_binding_slot_sym "send" =
        some sendSym →
      depth < args.max_depth → sendSym ∉ st.considered →
      ∃ st' sid, slotOwnerStage args resolve st symId depth (some j) = .ok (st', false) ∧
        st'.sym_node_set.findIdx sendSym = some sid ∧
        (sid, symId) ∈ st'.graph.edges ∧ (sendSym, depth + 1) ∈ st'.to_traverse) := by
  refine ⟨?_, ?_, ?_⟩
  · intro args resolve st symId depth j so hparse hk
    rw [slotOwnerStage.eq_def]
    simp only
    rw [hparse]
    simp only
    rcases hk with hk | hk | hk | hk <;> rw [hk] <;> rfl
  · intro args resolve st symId depth j so hparse hk
    rw [slotOwnerStage.eq_def]
    simp only
    rw [hparse]
    simp only
    rw [hk]
    simp only
    cases hslot : (st.sym_node_set.ensure_symbol resolve so.sym).2.1.get_binding_slot_sym "send" with
    | none => exact ⟨_, rfl⟩
    | some sendSym => exact ⟨_, rfl⟩
  · intro args resolve st symId depth j so sendSym hparse hk hsend hdep hns
    rw [slotOwnerStage.eq_def]
    simp only
    rw [hparse]
    simp only
    rw [hk]
    simp only
    rw [hsend]
    simp only
    rw [ensure_info, infoOf_symbol]
    rw [maybeSchedule, if_pos hdep]
    simp only
    rw [consideredInsert_fresh _ _ hns]
    simp only [if_true]
    refine ⟨_, ((st.sym_node_set.ensure_symbol resolve so.sym).2.2.ensure_symbol resolve
      sendSym).1, rfl, ?_, ?_, ?_⟩
    · exact ensure_findIdx_self _ resolve sendSym
    · exact mem_add_edge_self _ _ _
    · exact List.mem_cons_self _ _

/-- C6 witness: a concrete Recv slot owner with a paired send slot — the
edge send→self is drawn, the send symbol enqueued, and the symbol
abandoned. -/
theorem claim_C6_witness :
    ∃ st' sid, slotOwnerStage Args.defaults c6wResolve TState.initial 0 0 (some c6wJson) =
        .ok (st', false) ∧
      st'.sym_node_set.findIdx "S" = some sid ∧
      (sid, 0) ∈ st'.graph.edges ∧ ("S", 1) ∈ st'.to_traverse :=
  claim_C6_slot_owner.2.2 Args.defaults c6wResolve TState.initial 0 0 c6wJson
    ⟨"O", .recv⟩ "S" rfl rfl rfl (by decide) (by simp [TState.initial])

/-- C8, amended: seeding puts every seed in the node set, marks it
considered and ensures a bare node in the graph before the loop runs, and
in the non-reduced output (paths-between disabled) every seed symbol
therefore appears as a node of the collection even with zero edges; the
paths-between reduced collection, however, may omit a seed (see the
counterexample). -/
theorem claim_C8_seed_nodes :
    (∀ (infos : List SymbolCrossrefInfo) (sc : SymbolCrossrefInfo), sc ∈ infos →
      SeedP (seedInit infos).1 sc.symbol) ∧
    (∀ (args : Args) (resolve : String → Json) (infos : List SymbolCrossrefInfo)
        (fuel : Nat) (coll : SymbolGraphCollection),
      args.paths_between = false →
      execute args resolve (.symbolCrossrefInfoList infos) fuel =
        .ok (some (.symbolGraphCollection coll)) →
      ∀ sc ∈ infos, ∃ i, coll.node_set.findIdx sc.symbol = some i ∧
        (∃ info, coll.node_set.get i = some info ∧ info.symbol = sc.symbol) ∧
        ∃ g, coll.graphs = [g] ∧ i ∈ g.nodes) := by
  constructor
  · intro infos sc h
    exact seed_establishes infos (TState.initial, []) sc h
  · intro args resolve infos fuel coll hpb hex sc hmem
    rw [execute] at hex
    cases hloop : traverseLoop args resolve fuel (seedInit infos).1 with
    | error er =>
      rw [hloop] at hex
      cases hex
    | ok r =>
      rw [hloop] at hex
      cases r with
      | none =>
        simp only at hex
        cases hex
      | some st =>
        simp only [hpb] at hex
        rw [if_neg (by simp)] at hex
        cases hex
        have hseed := seed_establishes infos (TState.initial, []) sc hmem
        have hmono := traverseLoop_mono args resolve fuel _ _ hloop
        obtain ⟨⟨i, hfi, hnode⟩, _⟩ := seedP_mono hmono hseed
        obtain ⟨info, hget, hsym⟩ := findIdx_get _ _ _ hfi
        exact ⟨i, hfi, ⟨info, hget, hsym⟩, ⟨st.graph, rfl, hnode⟩⟩

/-- C8 counterexample: with paths-between enabled and a single zero-edge
seed "A", the run succeeds but the reduced collection's node set is empty —
the seed does not appear as a node in the output graph collection. -/
theorem claim_C8_counterexample :
    outNodeSymbols c8Out = some [] ∧ outGraphNames c8Out = some ["paths"] :=
  ⟨rfl, rfl⟩

/-- C8 witness: the non-reduced output of a one-seed run contains the seed
as a bare node. -/
theorem claim_C8_witness :
    ∃ i, c8wColl.node_set.findIdx "A" = some i ∧
      (∃ info, c8wColl.node_set.get i = some info ∧ info.symbol = "A") ∧
      ∃ g, c8wColl.graphs = [g] ∧ i ∈ g.nodes :=
  claim_C8_seed_nodes.2 Args.defaults (fun _ => Json.null) [⟨"A", Json.obj []⟩] 9
    c8wColl rfl rfl ⟨"A", Json.obj []⟩ (List.mem_singleton.mpr rfl)

/-- C10 witness: a hit without a `contextsym` field is skipped, and a
path-group without a `lines` array is the uses data error. -/
theorem claim_C10_witness :
    usesHitLoop 8 (fun _ => Json.null) 0 0 TState.initial [] [Json.obj []] =
      usesHitLoop 8 (fun _ => Json.null) 0 0 TState.initial [] [] ∧
    usesGroupLoop 8 (fun _ => Json.null) "R" 0 0 TState.initial [] [Json.obj []] =
      .error (.data "R" "edge uses") :=
  ⟨claim_C10_uses_hits.1 8 (fun _ => Json.null) 0 0 TState.initial [] (Json.obj []) []
      (.inl rfl),
    claim_C10_uses_hits.2 8 (fun _ => Json.null) "R" 0 0 [Json.obj []] TState.initial []
      ⟨Json.obj [], List.mem_singleton.mpr rfl, rfl⟩⟩

end CmdTraverse
